import Mathlib

/-!
# Verification of the WordPress readme.txt preview pipeline

A shallow embedding, over `List Char`, of the text-processing core of the
`wordpress-readme-preview` extension:

* `ReadmeParser` (readmeParser.ts): header/section structural parser;
* `ReadmeValidator` (src/parser/validator.ts): compliance validator and score;
* `WordPressMarkdownParser` (src/parser/markdownParser.ts): the WordPress
  Markdown subset renderer;
* `autoFixReadme` (autoFix.ts): the heuristic auto-fix transformer.

Text is modelled as `List Char` (ASCII fragment of JavaScript string
semantics).  JavaScript regular expressions used by the source are embedded
as executable matching functions; each matcher's doc comment names the regex
it implements and, where the regex engine's greedy/lazy backtracking matters,
records the reasoning that justifies the direct functional form.

Human-readable diagnostic messages are abstracted into inductive tags that
carry the data the source interpolates into the message string; everything
else (kinds, fields, order, line numbers, suggestions) is kept exactly.
-/

/-! ## JavaScript string primitives -/

/-- JavaScript `String.prototype.includes`: substring containment. -/
def containsSub (pat : List Char) : List Char → Bool
  | [] => pat.isPrefixOf []
  | c :: rest => pat.isPrefixOf (c :: rest) || containsSub pat rest

/-- ASCII fragment of the JavaScript whitespace class: the characters matched
by `\s` and removed by `String.prototype.trim` (space, tab, LF, VT, FF, CR). -/
def isJsWs (c : Char) : Bool :=
  c = ' ' || c = '\t' || c = '\n' || c = '\r' || c = '\x0b' || c = '\x0c'

/-- Left trim: drop leading JS whitespace. -/
def ltrim (s : List Char) : List Char := s.dropWhile isJsWs

/-- Right trim: drop trailing JS whitespace. -/
def rtrim (s : List Char) : List Char := (s.reverse.dropWhile isJsWs).reverse

/-- JavaScript `String.prototype.trim` (ASCII fragment). -/
def trim (s : List Char) : List Char := rtrim (ltrim s)

/-- ASCII `toLowerCase`. -/
def lowerChar (c : Char) : Char :=
  if 65 ≤ c.toNat ∧ c.toNat ≤ 90 then Char.ofNat (c.toNat + 32) else c

/-- JavaScript `String.prototype.toLowerCase` (ASCII fragment). -/
def lower (s : List Char) : List Char := s.map lowerChar

/-- `String.prototype.split(sep)` for a single-character separator
(used for `split('\n')` and `split(',')`): keeps empty pieces. -/
def splitOnChar (sep : Char) : List Char → List (List Char)
  | [] => [[]]
  | c :: rest =>
    if c = sep then [] :: splitOnChar sep rest
    else
      match splitOnChar sep rest with
      | [] => [[c]]
      | l :: ls => (c :: l) :: ls

/-- `String.prototype.split(/\r?\n/)`: a `"\r\n"` pair or a lone `'\n'`
separates lines; a `'\r'` not followed by `'\n'` stays inside its line. -/
def splitCRLF : List Char → List (List Char)
  | [] => [[]]
  | '\r' :: '\n' :: rest => [] :: splitCRLF rest
  | '\n' :: rest => [] :: splitCRLF rest
  | c :: rest =>
    match splitCRLF rest with
    | [] => [[c]]
    | l :: ls => (c :: l) :: ls

/-- `Array.prototype.join('\n')`. -/
def joinLF (ls : List (List Char)) : List Char := List.intercalate ['\n'] ls

/-- `Array.prototype.join(' ')`. -/
def joinSp (ls : List (List Char)) : List Char := List.intercalate [' '] ls

/-- The regex `^\d+\.\d+(\.\d+)?$` (version shape `X.Y` or `X.Y.Z`). -/
def versionOk (v : List Char) : Bool :=
  let d1 := v.takeWhile Char.isDigit
  let r1 := v.dropWhile Char.isDigit
  d1 ≠ [] &&
    match r1 with
    | '.' :: r2 =>
      let d2 := r2.takeWhile Char.isDigit
      let r3 := r2.dropWhile Char.isDigit
      d2 ≠ [] &&
        match r3 with
        | [] => true
        | '.' :: r4 =>
          let d3 := r4.takeWhile Char.isDigit
          d3 ≠ [] && r4.dropWhile Char.isDigit = []
        | _ => false
    | _ => false

/-- Length of the run of `'='` at the start of a line. -/
def eqRunLead (t : List Char) : Nat := (t.takeWhile (fun c => c = '=')).length

/-- Length of the run of `'='` at the end of a line. -/
def eqRunTrail (t : List Char) : Nat := (t.reverse.takeWhile (fun c => c = '=')).length

/-! ## ReadmeParser (readmeParser.ts) -/

namespace ReadmeParser

/-- `ReadmeHeader` of readmeParser.ts.  The three fields marked optional in
the TypeScript interface (`donateLink?`, `requiresPHP?`, `licenseURI?`) are
`Option`s; `none` models the JavaScript value `undefined`. -/
structure ReadmeHeader where
  pluginName : List Char
  contributors : List (List Char)
  donateLink : Option (List Char)
  tags : List (List Char)
  requiresAtLeast : List Char
  testedUpTo : List Char
  stableTag : List Char
  requiresPHP : Option (List Char)
  license : List Char
  licenseURI : Option (List Char)
  shortDescription : List Char
deriving DecidableEq, Repr

/-- `ReadmeSection` of readmeParser.ts. -/
structure ReadmeSection where
  title : List Char
  content : List Char
  level : Nat
  lineStart : Nat
  lineEnd : Nat
deriving DecidableEq, Repr

/-- Tags for the message strings pushed by `validateParsedContent`. -/
inductive ParseMsg where
  | pluginNameRequired
  | contributorsRequired
  | tagsRequired
  | maxTagsRecommended
  | requiresAtLeastRequired
  | testedUpToRequired
  | stableTagRequired
  | licenseRequired
  | shortDescriptionRequired
  | shortDescriptionTooLong
  | requiresAtLeastFormat
  | testedUpToFormat
  | stableTagFormat
  | requiresPHPFormat
deriving DecidableEq, Repr

/-- `ParsedReadme` of readmeParser.ts. -/
structure ParsedReadme where
  header : ReadmeHeader
  sections : List ReadmeSection
  rawContent : List Char
  errors : List ParseMsg
  warnings : List ParseMsg
deriving DecidableEq, Repr

/-- The regex `/^===\s*(.+?)\s*===$/` (`HEADER_FIELDS.PLUGIN_NAME`), returning
the captured group *after* the `.trim()` the caller applies.

A match requires literal `===` at both ends with at least one character
between (so length ≥ 7).  The lazy group together with the greedy `\s*`
bounds means the capture is the interior minus some of its surrounding
whitespace, so `capture.trim()` equals the trim of the whole interior.  `.`
does not match `'\n'`/`'\r'`, so the interior's non-whitespace core must be
free of them; an all-whitespace interior still matches provided some interior
character is a `.`-matchable whitespace character. -/
def pluginNameMatch (t : List Char) : Option (List Char) :=
  if 7 ≤ t.length ∧ [ '=', '=', '=' ].isPrefixOf t ∧ [ '=', '=', '=' ].isSuffixOf t then
    let mid := (t.drop 3).take (t.length - 6)
    let core := trim mid
    if core ≠ [] then
      if '\r' ∉ core ∧ '\n' ∉ core then some core else none
    else
      if mid.any (fun c => c ≠ '\r' ∧ c ≠ '\n') then some [] else none
  else none

/-- The regex `/^==\s+(.+?)\s+==$/` (`SECTION_HEADER`), returning the captured
title *after* the `.trim()` the caller applies.

A match needs literal `==` at both ends, an interior of length ≥ 3 that both
starts and ends with whitespace (the mandatory `\s+` on each side), and a
non-empty `.`-matchable capture between them; as with `pluginNameMatch`, the
capture trims to the trim of the whole interior. -/
def sectionHeaderMatch (l : List Char) : Option (List Char) :=
  if [ '=', '=' ].isPrefixOf l ∧ [ '=', '=' ].isSuffixOf l then
    let mid := (l.drop 2).take (l.length - 4)
    if 3 ≤ mid.length ∧
        (mid.head?.map isJsWs).getD false ∧ (mid.getLast?.map isJsWs).getD false then
      let core := trim mid
      if core ≠ [] then
        if '\r' ∉ core ∧ '\n' ∉ core then some core else none
      else
        if ((mid.drop 1).take (mid.length - 2)).any (fun c => c ≠ '\r' ∧ c ≠ '\n')
        then some core else none
    else none
  else none

/-- A field regex `/^FieldName:\s*(.+)$/i` applied, as in the source, to an
already-trimmed line; `name` is the field name in lower case.  Returns the
captured value.  On a trimmed line the text after the colon either is empty
(no match, `.+` needs a character) or ends in a non-whitespace character, so
the greedy `\s*` takes all whitespace after the colon and the capture is the
rest, which must be `.`-matchable (no `'\r'`/`'\n'`). -/
def matchFieldLine (name : List Char) (t : List Char) : Option (List Char) :=
  if (name ++ [':']).isPrefixOf (lower t) then
    let v := ltrim (t.drop (name.length + 1))
    if v ≠ [] ∧ '\r' ∉ v ∧ '\n' ∉ v then some v else none
  else none

def contribStr : List Char := [ 'c', 'o', 'n', 't', 'r', 'i', 'b', 'u', 't', 'o', 'r', 's' ]

def donateStr : List Char := "donate link".toList

def tagsStr : List Char := "tags".toList

def requiresAtLeastStr : List Char := "requires at least".toList

def testedUpToStr : List Char := "tested up to".toList

def stableTagStr : List Char := "stable tag".toList

def requiresPHPStr : List Char := "requires php".toList

def licenseStr : List Char := "license".toList

def licenseURIStr : List Char := "license uri".toList

/-- `isHeaderField`: `Object.values(HEADER_FIELDS).some(regex => regex.test(line))`
(all ten patterns, including the plugin-name pattern). -/
def isHeaderField (t : List Char) : Bool :=
  (pluginNameMatch t).isSome ||
  (matchFieldLine contribStr t).isSome ||
  (matchFieldLine donateStr t).isSome ||
  (matchFieldLine tagsStr t).isSome ||
  (matchFieldLine requiresAtLeastStr t).isSome ||
  (matchFieldLine testedUpToStr t).isSome ||
  (matchFieldLine stableTagStr t).isSome ||
  (matchFieldLine requiresPHPStr t).isSome ||
  (matchFieldLine licenseStr t).isSome ||
  (matchFieldLine licenseURIStr t).isSome

/-- First loop of `parseHeader`: find the first line (trimmed) matching the
plugin-name pattern. -/
def findPluginName : List (List Char) → Option (List Char)
  | [] => none
  | l :: ls =>
    match pluginNameMatch (trim l) with
    | some t => some t
    | none => findPluginName ls

/-- Mutable state of the second `parseHeader` loop (all fields start unset,
as on the `Partial<ReadmeHeader>` object). -/
structure FieldScan where
  contributors : Option (List (List Char)) := none
  donateLink : Option (List Char) := none
  tags : Option (List (List Char)) := none
  requiresAtLeast : Option (List Char) := none
  testedUpTo : Option (List Char) := none
  stableTag : Option (List Char) := none
  requiresPHP : Option (List Char) := none
  license : Option (List Char) := none
  licenseURI : Option (List Char) := none
  sdStart : Option Nat := none
  headerEnd : Option Nat := none
deriving DecidableEq, Repr

/-- Second loop of `parseHeader`: scan each trimmed line, stopping at the
first section header; check the field patterns in source order (each match
`continue`s); otherwise a non-empty non-field line after the plugin name
marks the start of the short description.  `hasPluginName` is whether the
first loop found a plugin name anywhere in the document. -/
def scanFields (hasPluginName : Bool) : Nat → List (List Char) → FieldScan → FieldScan
  | _, [], st => st
  | i, l :: ls, st =>
    let t := trim l
    if (sectionHeaderMatch t).isSome then { st with headerEnd := some i }
    else
      match matchFieldLine contribStr t with
      | some v =>
        let ct := trim v
        let st' := if ct.head? ≠ some '(' ∧ ct ≠ []
          then { st with contributors := some ((splitOnChar ',' ct).map trim) } else st
        scanFields hasPluginName (i + 1) ls st'
      | none =>
      match matchFieldLine donateStr t with
      | some v => scanFields hasPluginName (i + 1) ls { st with donateLink := some (trim v) }
      | none =>
      match matchFieldLine tagsStr t with
      | some v =>
        let tt := trim v
        let st' := if tt ≠ []
          then { st with tags := some ((splitOnChar ',' tt).map trim) } else st
        scanFields hasPluginName (i + 1) ls st'
      | none =>
      match matchFieldLine requiresAtLeastStr t with
      | some v => scanFields hasPluginName (i + 1) ls { st with requiresAtLeast := some (trim v) }
      | none =>
      match matchFieldLine testedUpToStr t with
      | some v => scanFields hasPluginName (i + 1) ls { st with testedUpTo := some (trim v) }
      | none =>
      match matchFieldLine stableTagStr t with
      | some v => scanFields hasPluginName (i + 1) ls { st with stableTag := some (trim v) }
      | none =>
      match matchFieldLine requiresPHPStr t with
      | some v => scanFields hasPluginName (i + 1) ls { st with requiresPHP := some (trim v) }
      | none =>
      match matchFieldLine licenseStr t with
      | some v => scanFields hasPluginName (i + 1) ls { st with license := some (trim v) }
      | none =>
      match matchFieldLine licenseURIStr t with
      | some v => scanFields hasPluginName (i + 1) ls { st with licenseURI := some (trim v) }
      | none =>
        let st' := if t ≠ [] ∧ ¬ isHeaderField t ∧ st.sdStart = none ∧ hasPluginName
          then { st with sdStart := some i } else st
        scanFields hasPluginName (i + 1) ls st'

/-- Short-description extraction loop: collect trimmed, non-empty, non-field
lines; a field or blank line after at least one collected line stops. -/
def collectDesc : List (List Char) → List (List Char) → List (List Char)
  | [], acc => acc.reverse
  | l :: ls, acc =>
    let t := trim l
    if t ≠ [] ∧ ¬ isHeaderField t then collectDesc ls (t :: acc)
    else if acc ≠ [] then acc.reverse
    else collectDesc ls acc

/-- `ReadmeParser.parseHeader`. -/
def parseHeader (lines : List (List Char)) : ReadmeHeader :=
  let pn := findPluginName lines
  let st := scanFields pn.isSome 0 lines {}
  let boundary := st.headerEnd.getD lines.length
  let sd : List Char :=
    match st.sdStart with
    | none => []
    | some s => joinSp (collectDesc ((lines.drop s).take (boundary - s)) [])
  { pluginName := pn.getD []
    contributors := st.contributors.getD []
    tags := st.tags.getD []
    requiresAtLeast := st.requiresAtLeast.getD []
    testedUpTo := st.testedUpTo.getD []
    stableTag := st.stableTag.getD []
    license := st.license.getD []
    shortDescription := sd
    donateLink := st.donateLink
    requiresPHP := st.requiresPHP
    licenseURI := st.licenseURI }

/-- `ReadmeParser.parseSections` loop.  `i` is the current line index, `cur`
the open section's title and start line, `content` its accumulated content
lines in reverse.  Matching is on the *raw* (untrimmed) line.  When the input
is exhausted `i` equals the document's line count, so `i - 1` is
`lines.length - 1` as in the source. -/
def sectionsGo : Nat → List (List Char) → Option (List Char × Nat) →
    List (List Char) → List ReadmeSection
  | i, [], cur, content =>
    match cur with
    | none => []
    | some (ti, s) => [⟨ti, trim (joinLF content.reverse), 2, s, i - 1⟩]
  | i, l :: ls, cur, content =>
    match sectionHeaderMatch l with
    | some title =>
      let rest := sectionsGo (i + 1) ls (some (title, i)) []
      match cur with
      | none => rest
      | some (ti, s) => ⟨ti, trim (joinLF content.reverse), 2, s, i - 1⟩ :: rest
    | none =>
      match cur with
      | none => sectionsGo (i + 1) ls none content
      | some _ => sectionsGo (i + 1) ls cur (l :: content)

/-- `ReadmeParser.parseSections`. -/
def parseSections (lines : List (List Char)) : List ReadmeSection :=
  sectionsGo 0 lines none []

/-- Errors pushed by `validateParsedContent`, in source order. -/
def seedErrors (h : ReadmeHeader) : List ParseMsg :=
  (if h.pluginName = [] then [ParseMsg.pluginNameRequired] else []) ++
  (if h.contributors = [] then [ParseMsg.contributorsRequired] else []) ++
  (if h.tags = [] then [ParseMsg.tagsRequired] else []) ++
  (if h.requiresAtLeast = [] then [ParseMsg.requiresAtLeastRequired] else []) ++
  (if h.testedUpTo = [] then [ParseMsg.testedUpToRequired] else []) ++
  (if h.stableTag = [] then [ParseMsg.stableTagRequired] else []) ++
  (if h.license = [] then [ParseMsg.licenseRequired] else []) ++
  (if h.shortDescription = [] then [ParseMsg.shortDescriptionRequired] else [])

/-- Warnings pushed by `validateParsedContent`, in source (push) order. -/
def seedWarnings (h : ReadmeHeader) : List ParseMsg :=
  (if h.tags ≠ [] ∧ 5 < h.tags.length then [ParseMsg.maxTagsRecommended] else []) ++
  (if h.shortDescription ≠ [] ∧ 150 < h.shortDescription.length
    then [ParseMsg.shortDescriptionTooLong] else []) ++
  (if h.requiresAtLeast ≠ [] ∧ ¬ versionOk h.requiresAtLeast
    then [ParseMsg.requiresAtLeastFormat] else []) ++
  (if h.testedUpTo ≠ [] ∧ ¬ versionOk h.testedUpTo
    then [ParseMsg.testedUpToFormat] else []) ++
  (if h.stableTag ≠ [] ∧ ¬ versionOk h.stableTag
    then [ParseMsg.stableTagFormat] else []) ++
  (if (h.requiresPHP.getD []) ≠ [] ∧ ¬ versionOk (h.requiresPHP.getD [])
    then [ParseMsg.requiresPHPFormat] else [])

/-- `ReadmeParser.parse`. -/
def parse (raw : List Char) : ParsedReadme :=
  let lines := splitOnChar '\n' raw
  let header := parseHeader lines
  { header := header
    sections := parseSections lines
    rawContent := raw
    errors := seedErrors header
    warnings := seedWarnings header }

end ReadmeParser

/-! ## ReadmeValidator (src/parser/validator.ts) -/

/-- Positions at which a `/gm` pattern's `^`/`$` anchors bind: any of the
line terminators `'\n'` and `'\r'` separates lines (per ECMAScript multiline
semantics, a `"\r\n"` pair encloses an empty line). -/
def splitTerm : List Char → List (List Char)
  | [] => [[]]
  | c :: rest =>
    if c = '\n' ∨ c = '\r' then [] :: splitTerm rest
    else
      match splitTerm rest with
      | [] => [[c]]
      | l :: ls => (c :: l) :: ls

namespace ReadmeValidator

open ReadmeParser

/-- Diagnostic severity (`'error' | 'warning' | 'info'`). -/
inductive VType where
  | error
  | warning
  | info
deriving DecidableEq, Repr

/-- The `field` names attached to diagnostics. -/
inductive VField where
  | pluginName | contributors | donateLink | tags | requiresAtLeast
  | testedUpTo | stableTag | requiresPHP | license | licenseURI
  | shortDescription
deriving DecidableEq, Repr

/-- Tags for the message and suggestion strings of validator diagnostics;
each constructor corresponds to one string template of the source and
carries the values the template interpolates. -/
inductive VMsg where
  | isRequired (f : VField)
  | addFieldSuggestion (f : VField)
  | pluginNameTooShort
  | pluginNameTooLong
  | invalidContributor (c : List Char)
  | useWpUsernames
  | maxTagsExceeded (n : Nat)
  | fewerTags
  | tagTooLong (t : List Char)
  | versionFormat (f : VField) (v : List Char)
  | useSemver
  | shortDescTooLong (n : Nat)
  | shortenDescription
  | shortDescHtml
  | removeHtmlTags
  | shortDescBrief
  | licenseNotGpl
  | gplRequired
  | donateLinkInvalid
  | licenseURIInvalid
  | considerAdding (s : List Char)
  | sectionHelps (s : List Char)
  | sectionEmpty (t : List Char)
  | addContentOrRemove
  | descriptionFirst
  | descTooShort
  | descTooLong
  | useNumberedSteps
  | faqNeedsQuestions
  | screenshotsNeedNumbers
  | changelogNeedsVersions
  | upgradeNoticeTooLong
  | promotional (w : List Char)
  | focusOnFunctionality
  | avoidEmail
  | fileTooLarge (size : Nat)
  | moveDocsToWebsite
  | malformedHeading
  | headingSuggestion (s : List Char)
deriving DecidableEq, Repr

/-- `ValidationError` of validator.ts. -/
structure ValidationError where
  type : VType
  field : Option VField := none
  message : VMsg
  line : Option Nat := none
  suggestion : Option VMsg := none
deriving DecidableEq, Repr

/-- `ValidationResult` of validator.ts (`score` is a JS number; the
computation is integral). -/
structure ValidationResult where
  isValid : Bool
  errors : List ValidationError
  warnings : List ValidationError
  score : Int
deriving DecidableEq, Repr

/-- One required-field error item. -/
def requiredErr (f : VField) : ValidationError :=
  { type := .error, field := some f, message := .isRequired f,
    suggestion := some (.addFieldSuggestion f) }

/-- `if (...) { list.push(w) }`: the singleton-or-empty contribution of one
guarded push. -/
def warnIf (c : Prop) [Decidable c] (w : ValidationError) : List ValidationError :=
  if c then [w] else []

/-- `REQUIRED_FIELDS` of validator.ts. -/
def REQUIRED_FIELDS : List VField :=
  [.pluginName, .contributors, .tags, .requiresAtLeast, .testedUpTo,
   .stableTag, .license, .shortDescription]

/-- The truthiness test of the `REQUIRED_FIELDS` loop: a required field is
missing when its value is falsy (empty string) or an empty array.  Fields
that are not in `REQUIRED_FIELDS` are never tested by the loop. -/
def fieldMissing (h : ReadmeHeader) : VField → Bool
  | .pluginName => h.pluginName = []
  | .contributors => h.contributors = []
  | .tags => h.tags = []
  | .requiresAtLeast => h.requiresAtLeast = []
  | .testedUpTo => h.testedUpTo = []
  | .stableTag => h.stableTag = []
  | .license => h.license = []
  | .shortDescription => h.shortDescription = []
  | _ => false

/-- The `REQUIRED_FIELDS.forEach` loop of `validateHeader`: one error per
missing required field, in list order. -/
def requiredFieldErrors (h : ReadmeHeader) : List ValidationError :=
  (REQUIRED_FIELDS.filter (fieldMissing h)).map requiredErr

/-- `isValidWordPressUsername`: `/^[a-z0-9_-]{3,60}$/.test(username.toLowerCase())`. -/
def isValidWordPressUsername (u : List Char) : Bool :=
  let lu := lower u
  3 ≤ lu.length && lu.length ≤ 60 &&
    lu.all (fun c => ('a' ≤ c && c ≤ 'z') || c.isDigit || c = '_' || c = '-')

/-- The GPL-compatible substring allow-list of `isGPLCompatibleLicense`. -/
def gplCompatible : List (List Char) :=
  ["gpl".toList, "gplv2".toList, "gpl v2".toList, "gpl-2.0".toList, "gpl2".toList,
   "gplv3".toList, "gpl v3".toList, "gpl-3.0".toList, "gpl3".toList,
   "mit".toList, "apache".toList, "bsd".toList]

/-- `isGPLCompatibleLicense`: case-insensitive substring containment of any
allow-list entry. -/
def isGPLCompatibleLicense (license : List Char) : Bool :=
  gplCompatible.any (fun compatible => containsSub compatible (lower license))

/-- Tail search for `isValidUrl`: after the scheme, the regex needs
`.+\..+`: a `'.'` at position ≥ 1 whose preceding characters and following
character are `.`-matchable (not `'\r'`/`'\n'`).  `consumed` records whether
at least one character precedes the current position. -/
def urlDotSearch : Bool → List Char → Bool
  | _, [] => false
  | consumed, c :: rest =>
    if c = '\r' ∨ c = '\n' then false
    else if c == '.' && consumed &&
        (match rest with | d :: _ => d != '\r' && d != '\n' | [] => false) then true
    else urlDotSearch true rest

/-- `isValidUrl`: `/^https?:\/\/.+\..+/i.test(url)`. -/
def isValidUrl (url : List Char) : Bool :=
  let lu := lower url
  if "https://".toList.isPrefixOf lu then urlDotSearch false (url.drop 8)
  else if "http://".toList.isPrefixOf lu then urlDotSearch false (url.drop 7)
  else false

/-- `validateVersionFormat`: returns the warning (if any) for one version
field; empty value returns early with no warning. -/
def versionFormatWarning (version : List Char) (f : VField) : List ValidationError :=
  if version = [] then []
  else warnIf (¬ versionOk version)
    { type := .warning, field := some f, message := .versionFormat f version,
      suggestion := some .useSemver }

/-- Warnings pushed by `validateHeader`, in push order. -/
def headerWarnings (h : ReadmeHeader) : List ValidationError :=
  warnIf (h.pluginName ≠ [] ∧ h.pluginName.length < 3)
    { type := .warning, field := some .pluginName, message := .pluginNameTooShort } ++
  warnIf (h.pluginName ≠ [] ∧ 60 < h.pluginName.length)
    { type := .warning, field := some .pluginName, message := .pluginNameTooLong } ++
  (h.contributors.flatMap (fun c =>
    warnIf (¬ isValidWordPressUsername c)
      { type := .warning, field := some .contributors, message := .invalidContributor c,
        suggestion := some .useWpUsernames })) ++
  warnIf (5 < h.tags.length)
    { type := .warning, field := some .tags, message := .maxTagsExceeded h.tags.length,
      suggestion := some .fewerTags } ++
  (h.tags.flatMap (fun tag =>
    warnIf (50 < tag.length)
      { type := .warning, field := some .tags, message := .tagTooLong tag })) ++
  versionFormatWarning h.requiresAtLeast .requiresAtLeast ++
  versionFormatWarning h.testedUpTo .testedUpTo ++
  versionFormatWarning h.stableTag .stableTag ++
  (match h.requiresPHP with
   | some v => if v ≠ [] then versionFormatWarning v .requiresPHP else []
   | none => []) ++
  warnIf (h.shortDescription ≠ [] ∧ 150 < h.shortDescription.length)
    { type := .warning, field := some .shortDescription,
      message := .shortDescTooLong h.shortDescription.length,
      suggestion := some .shortenDescription } ++
  warnIf (h.shortDescription ≠ [] ∧ ('<' ∈ h.shortDescription ∨ '>' ∈ h.shortDescription))
    { type := .warning, field := some .shortDescription, message := .shortDescHtml,
      suggestion := some .removeHtmlTags } ++
  warnIf (h.shortDescription ≠ [] ∧ h.shortDescription.length < 20)
    { type := .warning, field := some .shortDescription, message := .shortDescBrief } ++
  warnIf (h.license ≠ [] ∧ ¬ isGPLCompatibleLicense h.license)
    { type := .warning, field := some .license, message := .licenseNotGpl,
      suggestion := some .gplRequired } ++
  (match h.donateLink with
   | some v =>
     warnIf (v ≠ [] ∧ ¬ isValidUrl v)
       { type := .warning, field := some .donateLink, message := .donateLinkInvalid }
   | none => []) ++
  (match h.licenseURI with
   | some v =>
     warnIf (v ≠ [] ∧ ¬ isValidUrl v)
       { type := .warning, field := some .licenseURI, message := .licenseURIInvalid }
   | none => [])

/-- `RECOMMENDED_SECTIONS`. -/
def recommendedSections : List (List Char) :=
  ["Description".toList, "Installation".toList,
   "Frequently Asked Questions".toList, "Screenshots".toList, "Changelog".toList]

/-- `/^\d+\./` anchored at the start of a string. -/
def startsWithNumDot (s : List Char) : Bool :=
  s.takeWhile Char.isDigit ≠ [] ∧ (s.dropWhile Char.isDigit).head? = some '.'

/-- One line of the FAQ `/^=\s*.+\s*=$/gm` pattern: `=` at both ends with a
`.`-matchable non-empty interior between optional whitespace runs (the
greedy `.+` may itself swallow `=` and whitespace). -/
def faqQuestionLine (l : List Char) : Bool :=
  l.head? = some '=' ∧ l.getLast? = some '=' ∧ 3 ≤ l.length ∧
    (let mid := (l.drop 1).take (l.length - 2)
     let core := trim mid
     if core ≠ [] then '\r' ∉ core ∧ '\n' ∉ core
     else mid.any (fun c => c ≠ '\r' ∧ c ≠ '\n'))

/-- One line of the changelog `/^=\s*[\d.]+\s*=$/gm` pattern: `=` at both
ends, and the interior trims to a non-empty run of digits and dots. -/
def changelogVersionLine (l : List Char) : Bool :=
  l.head? = some '=' ∧ l.getLast? = some '=' ∧ 3 ≤ l.length ∧
    (let core := trim ((l.drop 1).take (l.length - 2))
     core ≠ [] ∧ core.all (fun c => c.isDigit || c = '.'))

/-- Split a line list at lines satisfying `p` (separator lines removed),
keeping empty groups, as `String.prototype.split` with a line-anchored
regex does. -/
def splitAtLines (p : List Char → Bool) : List (List Char) → List (List (List Char))
  | [] => [[]]
  | l :: ls =>
    if p l then [] :: splitAtLines p ls
    else
      match splitAtLines p ls with
      | [] => [[l]]
      | g :: gs => (l :: g) :: gs

/-- `validateSection`: per-section specialized warnings. -/
def sectionWarn (s : ReadmeSection) : List ValidationError :=
  if trim s.content = [] then
    [{ type := .warning, message := .sectionEmpty s.title, line := some s.lineStart,
       suggestion := some .addContentOrRemove }]
  else
    let title := lower s.title
    if title = "description".toList then
      warnIf (s.content.length < 100)
        { type := .warning, message := .descTooShort, line := some s.lineStart } ++
      warnIf (2000 < s.content.length)
        { type := .warning, message := .descTooLong, line := some s.lineStart }
    else if title = "installation".toList then
      warnIf (¬ startsWithNumDot s.content ∧ 50 < s.content.length)
        { type := .warning, message := .useNumberedSteps, line := some s.lineStart }
    else if title = "frequently asked questions".toList ∨ title = "faq".toList then
      warnIf ((splitTerm s.content).countP faqQuestionLine = 0)
        { type := .warning, message := .faqNeedsQuestions, line := some s.lineStart }
    else if title = "screenshots".toList then
      warnIf ((splitTerm s.content).countP startsWithNumDot = 0)
        { type := .warning, message := .screenshotsNeedNumbers, line := some s.lineStart }
    else if title = "changelog".toList then
      warnIf ((splitTerm s.content).countP changelogVersionLine = 0)
        { type := .warning, message := .changelogNeedsVersions, line := some s.lineStart }
    else if title = "upgrade notice".toList then
      ((splitAtLines changelogVersionLine (splitTerm s.content)).drop 1).flatMap
        (fun seg =>
          warnIf (300 < (trim (joinLF seg)).length)
            { type := .warning, message := .upgradeNoticeTooLong, line := some s.lineStart })
    else []

/-- Warnings pushed by `validateSections`, in push order: missing
recommended sections, per-section checks, then the section-order check. -/
def sectionWarnings (sections : List ReadmeSection) : List ValidationError :=
  let sectionTitles := sections.map (fun s => lower s.title)
  (recommendedSections.flatMap (fun r =>
    warnIf (¬ sectionTitles.contains (lower r))
      { type := .warning, message := .considerAdding r, suggestion := some (.sectionHelps r) })) ++
  sections.flatMap sectionWarn ++
  (match sections with
   | [] => []
   | s0 :: _ =>
     warnIf (lower s0.title ≠ "description".toList)
       { type := .warning, message := .descriptionFirst, line := some s0.lineStart })

/-- The promotional word list of `validateContent`. -/
def promotionalWords : List (List Char) :=
  ["best".toList, "ultimate".toList, "premium".toList, "pro".toList,
   "advanced".toList, "professional".toList]

/-- Warnings pushed by `validateContent`: a naive substring scan of the
lower-cased raw content for each promotional word, then the email check
(`content.includes('email') || content.includes('@')`). -/
def contentWarnings (rawContent : List Char) : List ValidationError :=
  let content := lower rawContent
  (promotionalWords.flatMap (fun word =>
    warnIf (containsSub word content = true)
      { type := .warning, message := .promotional word,
        suggestion := some .focusOnFunctionality })) ++
  warnIf (containsSub "email".toList content = true ∨ '@' ∈ content)
    { type := .warning, message := .avoidEmail }

/-- `validateFileSize` (`MAX_FILE_SIZE` is 10 KiB; the message carries the
character count from which the source computes the rounded KB figure). -/
def fileSizeWarnings (rawContent : List Char) : List ValidationError :=
  warnIf (10 * 1024 < rawContent.length)
    { type := .warning, message := .fileTooLarge rawContent.length,
      suggestion := some .moveDocsToWebsite }

/-- Modelled from the spec: the canonical heading shape test of the
*structural heading integrity scan*.  The scan belongs to the stricter
validator variant of this repository, which is exercised by
src/test/validator.test.ts ("flags malformed heading") and consumed by the
quick-fix module, but whose implementation is not part of the source
snapshot; the snapshot's validator.ts lacks it.  Per the spec, a trimmed
line starting with `=` must match exactly one of the three canonical shapes
`=== X ===`, `== X ==`, `= X =`: equal runs of 1–3 `=` on both sides,
interior spacing, and non-blank core text. -/
def canonicalHeading (t : List Char) : Bool :=
  (eqRunLead t = 1 ∨ eqRunLead t = 2 ∨ eqRunLead t = 3) ∧
  eqRunTrail t = eqRunLead t ∧
  (let k := eqRunLead t
   let mid := (t.drop k).take (t.length - 2 * k)
   3 ≤ mid.length ∧ mid.head? = some ' ' ∧ mid.getLast? = some ' ' ∧ trim mid ≠ [])

/-- Modelled from the spec: the computed replacement suggestion of the
heading integrity scan — "re-wrap the de-equals-stripped core text using
3/2/1 `=` based on which side had more". -/
def computeHeadingSuggestion (t : List Char) : List Char :=
  let lead := eqRunLead t
  let tra := eqRunTrail t
  let k := max 1 (min 3 (max lead tra))
  let core := trim ((t.drop lead).take (t.length - lead - tra))
  List.replicate k '=' ++ [' '] ++ core ++ [' '] ++ List.replicate k '='

/-- Modelled from the spec: the per-line loop of the heading integrity scan
(`i` is the 1-based number of the current line).  Every raw line that trims
to something starting with `=` but matching none of the canonical shapes
yields an error carrying the computed suggestion. -/
def headingScanGo : Nat → List (List Char) → List ValidationError
  | _, [] => []
  | i, l :: ls =>
    (if (trim l).head? = some '=' ∧ ¬ canonicalHeading (trim l) then
      [{ type := .error, message := .malformedHeading, line := some i,
         suggestion := some (.headingSuggestion (computeHeadingSuggestion (trim l))) }]
     else []) ++ headingScanGo (i + 1) ls

/-- Modelled from the spec: the heading integrity scan over the raw content
of a readme, as run by the stricter validator variant's `validate`. -/
def headingIntegrityErrors (rawContent : List Char) : List ValidationError :=
  headingScanGo 1 (splitOnChar '\n' rawContent)

/-- `calculateScore`: starts at 100; deducts, for each element of `errors`
only, 15 if it has type `'error'` and 5 otherwise (`warnings` is received
but never iterated — the `: 5` branch is dead because `errors` only ever
holds `'error'` diagnostics); adds the bonuses; clamps to `[0, 100]`. -/
def calculateScore (errors : List ValidationError) (warnings : List ValidationError)
    (readme : ParsedReadme) : Int :=
  let _ := warnings
  let deducted : Int :=
    errors.foldl (fun score e => score - (if e.type = .error then 15 else 5)) 100
  let b1 : Int :=
    match readme.sections.find? (fun s => lower s.title = "description".toList) with
    | some s => if 200 < s.content.length then 5 else 0
    | none => 0
  let b2 : Int :=
    if (readme.sections.find? (fun s => lower s.title = "installation".toList)).isSome
    then 3 else 0
  let b3 : Int :=
    if (readme.sections.find? (fun s => containsSub "faq".toList (lower s.title))).isSome
    then 3 else 0
  let b4 : Int :=
    if (readme.sections.find? (fun s => lower s.title = "changelog".toList)).isSome
    then 5 else 0
  let b5 : Int := if (readme.header.requiresPHP.getD []) ≠ [] then 2 else 0
  let b6 : Int := if (readme.header.licenseURI.getD []) ≠ [] then 2 else 0
  max 0 (min 100 (deducted + b1 + b2 + b3 + b4 + b5 + b6))

/-- `ReadmeValidator.validate`.  In the source, `errors` receives pushes only
from the required-field loop of `validateHeader`; every other check pushes to
`warnings`.  The score is computed before the two arrays are merged into the
result's `errors` field. -/
def validate (readme : ParsedReadme) : ValidationResult :=
  let errors := requiredFieldErrors readme.header
  let warnings :=
    headerWarnings readme.header ++
    sectionWarnings readme.sections ++
    contentWarnings readme.rawContent ++
    fileSizeWarnings readme.rawContent
  let score := calculateScore errors warnings readme
  { isValid := errors.length = 0
    errors := errors ++ warnings
    warnings := warnings
    score := score }

end ReadmeValidator

/-! ## WordPressMarkdownParser (src/parser/markdownParser.ts) -/

namespace WordPressMarkdownParser

/-- `MarkdownOptions`. -/
structure MarkdownOptions where
  allowVideos : Bool
  allowHTML : Bool
  baseUrl : Option (List Char) := none
deriving DecidableEq, Repr

/-- The default options value of `parse`. -/
def defaultOptions : MarkdownOptions := { allowVideos := true, allowHTML := false }

/-- `escapeHtml`'s five-entity table, per character. -/
def escapeHtmlChar (c : Char) : List Char :=
  if c = '&' then "&amp;".toList
  else if c = '<' then "&lt;".toList
  else if c = '>' then "&gt;".toList
  else if c = '"' then "&quot;".toList
  else if c = '\'' then "&#39;".toList
  else [c]

/-- `escapeHtml`. -/
def escapeHtml (s : List Char) : List Char := s.flatMap escapeHtmlChar

/-- The character class `[a-zA-Z0-9_-]`. -/
def isIdChar (c : Char) : Bool :=
  ('a' ≤ c && c ≤ 'z') || ('A' ≤ c && c ≤ 'Z') || c.isDigit || c = '_' || c = '-'

/-- `VIDEO_PATTERNS.YOUTUBE`
`/^https?:\/\/(?:www\.)?(?:youtube\.com\/watch\?v=|youtu\.be\/)([a-zA-Z0-9_-]+)/`:
returns the captured video id on a match. -/
def youTubeId (s : List Char) : Option (List Char) :=
  let afterScheme : Option (List Char) :=
    if "https://".toList.isPrefixOf s then some (s.drop 8)
    else if "http://".toList.isPrefixOf s then some (s.drop 7)
    else none
  match afterScheme with
  | none => none
  | some r0 =>
    let r := if "www.".toList.isPrefixOf r0 then r0.drop 4 else r0
    let afterHost : Option (List Char) :=
      if "youtube.com/watch?v=".toList.isPrefixOf r then some (r.drop 20)
      else if "youtu.be/".toList.isPrefixOf r then some (r.drop 9)
      else none
    match afterHost with
    | none => none
    | some rest =>
      let id := rest.takeWhile isIdChar
      if id ≠ [] then some id else none

/-- `VIDEO_PATTERNS.VIMEO` `/^https?:\/\/(?:www\.)?vimeo\.com\/(\d+)/`. -/
def vimeoId (s : List Char) : Option (List Char) :=
  let afterScheme : Option (List Char) :=
    if "https://".toList.isPrefixOf s then some (s.drop 8)
    else if "http://".toList.isPrefixOf s then some (s.drop 7)
    else none
  match afterScheme with
  | none => none
  | some r0 =>
    let r := if "www.".toList.isPrefixOf r0 then r0.drop 4 else r0
    if "vimeo.com/".toList.isPrefixOf r then
      let id := (r.drop 10).takeWhile Char.isDigit
      if id ≠ [] then some id else none
    else none

/-- Whether `/\[wpvideo\s+([^\]]+)\]/` matches at the point right after a
literal `[wpvideo`: the greedy `\s+`/`[^\]]+` pair succeeds exactly when the
maximal `]`-free run starts with whitespace, has length ≥ 2 (so a non-empty
capture remains after at least one whitespace character), and is followed by
`]`. -/
def wpvideoAt (r : List Char) : Bool :=
  let body := r.takeWhile (fun c => c ≠ ']')
  2 ≤ body.length ∧ (body.head?.map isJsWs).getD false ∧
    (r.drop body.length).head? = some ']'

/-- The capture of `/\[wpvideo\s+([^\]]+)\]/` given the `]`-free body after
`[wpvideo`: the body minus the maximal whitespace prefix, except that when
the body is all whitespace the regex backtracks and captures its last
character. -/
def wpvideoCapture (body : List Char) : List Char :=
  let w := body.takeWhile isJsWs
  if body.drop w.length ≠ [] then body.drop w.length
  else body.drop (body.length - 1)

/-- First match of `VIDEO_PATTERNS.VIDEOPRESS` `/\[wpvideo\s+([^\]]+)\]/`
(unanchored), returning its capture. -/
def findWpVideo : List Char → Option (List Char)
  | [] => none
  | c :: rest =>
    if "[wpvideo".toList.isPrefixOf (c :: rest) ∧ wpvideoAt ((c :: rest).drop 8) then
      some (wpvideoCapture (((c :: rest).drop 8).takeWhile (fun d => d ≠ ']')))
    else findWpVideo rest

/-- `isVideoUrl`: some video pattern matches. -/
def isVideoUrl (url : List Char) : Bool :=
  (youTubeId url).isSome || (vimeoId url).isSome || (findWpVideo url).isSome

/-- `convertVideoToEmbed` (the embed templates verbatim; `${...}` spliced). -/
def convertVideoToEmbed (url : List Char) : List Char :=
  match youTubeId url with
  | some videoId =>
    "<div class=\"video-embed youtube-embed\">\n        <iframe width=\"560\" height=\"315\" \n                src=\"https://www.youtube.com/embed/".toList ++
    videoId ++
    "\" \n                frameborder=\"0\" \n                allow=\"accelerometer; autoplay; clipboard-write; encrypted-media; gyroscope; picture-in-picture\" \n                allowfullscreen>\n        </iframe>\n      </div>".toList
  | none =>
  match vimeoId url with
  | some videoId =>
    "<div class=\"video-embed vimeo-embed\">\n        <iframe width=\"560\" height=\"315\" \n                src=\"https://player.vimeo.com/video/".toList ++
    videoId ++
    "\" \n                frameborder=\"0\" \n                allow=\"autoplay; fullscreen; picture-in-picture\" \n                allowfullscreen>\n        </iframe>\n      </div>".toList
  | none =>
  match findWpVideo url with
  | some captured =>
    "<div class=\"video-embed videopress-embed\">\n        <p><em>VideoPress video: ".toList ++
    captured ++ "</em></p>\n      </div>".toList
  | none => url

/-- `processLine` (the caller passes the trimmed line). -/
def processLine (line : List Char) (options : MarkdownOptions) : List Char :=
  if line = [] then []
  else if options.allowVideos ∧ isVideoUrl line then convertVideoToEmbed line
  else line

/-- Apply `f` to every maximal line-terminator-free run of the string,
leaving the terminators (`'\n'`, `'\r'`) in place — the effect of one
line-anchored `/gm` `String.replace` whose per-line action is `f`. -/
def mapLinesGmGo (f : List Char → List Char) (acc : List Char) : List Char → List Char
  | [] => f acc.reverse
  | c :: rest =>
    if c = '\n' ∨ c = '\r' then f acc.reverse ++ c :: mapLinesGmGo f [] rest
    else mapLinesGmGo f (c :: acc) rest

/-- See `mapLinesGmGo`. -/
def mapLinesGm (f : List Char → List Char) (s : List Char) : List Char :=
  mapLinesGmGo f [] s

/-- One `^#…# (.+)$` heading replacement on a terminator-free line:
`hashes ++ " "` must be a literal prefix and the non-empty remainder becomes
the tag's content. -/
def hashHeaderLine (hashes : List Char) (openT closeT : List Char) (l : List Char) : List Char :=
  if (hashes ++ [' ']).isPrefixOf l ∧ l.drop (hashes.length + 1) ≠ [] then
    openT ++ l.drop (hashes.length + 1) ++ closeT
  else l

/-- `processHeaders`: the four `/gm` replaces in source order
(`#### `, `### `, `##### `, `###### `).  Each replace is line-local and
preserves line terminators, so the sequence equals one per-line pass
applying the four rewrites in order. -/
def processHeaders (html : List Char) : List Char :=
  mapLinesGm
    (fun l =>
      hashHeaderLine "######".toList "<h6>".toList "</h6>".toList
        (hashHeaderLine "#####".toList "<h5>".toList "</h5>".toList
          (hashHeaderLine "###".toList "<h3>".toList "</h3>".toList
            (hashHeaderLine "####".toList "<h4>".toList "</h4>".toList l))))
    html

/-- `<blockquote>` assembly: interior lines joined by `<br>`. -/
def mkBlockquote (ls : List (List Char)) : List Char :=
  "<blockquote>".toList ++ List.intercalate "<br>".toList ls ++ "</blockquote>".toList

/-- The `processBlockquotes` loop (`pending` holds the open blockquote's
lines in reverse; empty means not in a blockquote). -/
def bqGo (pending : List (List Char)) : List (List Char) → List (List Char)
  | [] => match pending with | [] => [] | _ => [mkBlockquote pending.reverse]
  | l :: ls =>
    if "> ".toList.isPrefixOf l then bqGo (l.drop 2 :: pending) ls
    else
      match pending with
      | [] => l :: bqGo [] ls
      | _ => mkBlockquote pending.reverse :: l :: bqGo [] ls

/-- `processBlockquotes`. -/
def processBlockquotes (html : List Char) : List Char :=
  joinLF (bqGo [] (splitOnChar '\n' html))

/-- `/^(\d+)\.\s+(.+)$/`: the item text of an ordered-list line. -/
def orderedItem (l : List Char) : Option (List Char) :=
  let ds := l.takeWhile Char.isDigit
  if ds = [] then none
  else
    match l.drop ds.length with
    | '.' :: r =>
      let w := r.takeWhile isJsWs
      let rest := r.drop w.length
      if w ≠ [] ∧ rest ≠ [] ∧ '\r' ∉ rest ∧ '\n' ∉ rest then some rest else none
    | _ => none

/-- `/^[*-]\s+(.+)$/`: the item text of an unordered-list line. -/
def unorderedItem (l : List Char) : Option (List Char) :=
  match l with
  | c :: r =>
    if c = '*' ∨ c = '-' then
      let w := r.takeWhile isJsWs
      let rest := r.drop w.length
      if w ≠ [] ∧ rest ≠ [] ∧ '\r' ∉ rest ∧ '\n' ∉ rest then some rest else none
    else none
  | [] => none

/-- List state of the `processLists` loop. -/
inductive ListMode where
  | noList
  | ord (rev : List (List Char))
  | unord (rev : List (List Char))
deriving DecidableEq, Repr

/-- `<ol>` assembly. -/
def mkOl (items : List (List Char)) : List Char :=
  "<ol>".toList ++
    (items.flatMap (fun it => "<li>".toList ++ it ++ "</li>".toList)) ++ "</ol>".toList

/-- `<ul>` assembly. -/
def mkUl (items : List (List Char)) : List Char :=
  "<ul>".toList ++
    (items.flatMap (fun it => "<li>".toList ++ it ++ "</li>".toList)) ++ "</ul>".toList

/-- The `processLists` loop. -/
def listsGo : ListMode → List (List Char) → List (List Char)
  | mode, [] =>
    (match mode with
     | .noList => []
     | .ord rev => [mkOl rev.reverse]
     | .unord rev => [mkUl rev.reverse])
  | mode, l :: ls =>
    match orderedItem l with
    | some it =>
      (match mode with
       | .unord rev => mkUl rev.reverse :: listsGo (.ord [it]) ls
       | .ord rev => listsGo (.ord (it :: rev)) ls
       | .noList => listsGo (.ord [it]) ls)
    | none =>
      match unorderedItem l with
      | some it =>
        (match mode with
         | .ord rev => mkOl rev.reverse :: listsGo (.unord [it]) ls
         | .unord rev => listsGo (.unord (it :: rev)) ls
         | .noList => listsGo (.unord [it]) ls)
      | none =>
        (match mode with
         | .ord rev => mkOl rev.reverse :: l :: listsGo .noList ls
         | .unord rev => mkUl rev.reverse :: l :: listsGo .noList ls
         | .noList => l :: listsGo .noList ls)

/-- `processLists`. -/
def processLists (html : List Char) : List Char :=
  joinLF (listsGo .noList (splitOnChar '\n' html))

/-- `processCodeBlocks`: the global replace of `/```([^`]*)```/gs` — a
literal triple backtick, a maximal backtick-free body, and a closing triple
backtick; on failure the scan advances one character, as the regex engine
does. -/
def codeBlocksGo : Nat → List Char → List Char
  | _, [] => []
  | 0, s => s
  | fuel + 1, c :: rest =>
    if "```".toList.isPrefixOf (c :: rest) then
      let body := ((c :: rest).drop 3).takeWhile (fun d => d ≠ '`')
      let after := ((c :: rest).drop 3).drop body.length
      if "```".toList.isPrefixOf after then
        "<pre><code>".toList ++ escapeHtml (trim body) ++ "</code></pre>".toList ++
          codeBlocksGo fuel (after.drop 3)
      else c :: codeBlocksGo fuel rest
    else c :: codeBlocksGo fuel rest

/-- `processCodeBlocks`. -/
def processCodeBlocks (html : List Char) : List Char := codeBlocksGo html.length html

/-- `processLinks`: the global replace of `LINK_PATTERN`
`/\[([^\]]+)\]\(([^)]+)(?:\s+"([^"]*)")?\)/g`.  The greedy `[^)]+` always
extends to the character before the next `)`, after which the optional title
group cannot start (it would have to begin with whitespace at a `)`), so the
title alternative never participates and the replacement never carries a
`title` attribute; on failure the scan advances one character. -/
def linksGo : Nat → List Char → List Char
  | _, [] => []
  | 0, s => s
  | fuel + 1, c :: rest =>
    if c = '[' then
      let text := rest.takeWhile (fun d => d ≠ ']')
      let r1 := rest.drop text.length
      let r2 := r1.drop 2
      let url := r2.takeWhile (fun d => d ≠ ')')
      let r3 := r2.drop url.length
      if text ≠ [] ∧ r1.head? = some ']' ∧ (r1.drop 1).head? = some '(' ∧
          url ≠ [] ∧ r3.head? = some ')' then
        "<a href=\"".toList ++ escapeHtml url ++ "\">".toList ++ escapeHtml text ++
          "</a>".toList ++ linksGo fuel (r3.drop 1)
      else c :: linksGo fuel rest
    else c :: linksGo fuel rest

/-- `processLinks`. -/
def processLinks (html : List Char) : List Char := linksGo html.length html

/-- `processEmphasis`, inline-code pass: `` /`([^`]+)`/g `` with the body
HTML-escaped; on failure the scan advances one character. -/
def codeSpanGo : Nat → List Char → List Char
  | _, [] => []
  | 0, s => s
  | fuel + 1, c :: rest =>
    if c = '`' then
      let body := rest.takeWhile (fun d => d ≠ '`')
      if body ≠ [] ∧ (rest.drop body.length).head? = some '`' then
        "<code>".toList ++ escapeHtml body ++ "</code>".toList ++
          codeSpanGo fuel ((rest.drop body.length).drop 1)
      else c :: codeSpanGo fuel rest
    else c :: codeSpanGo fuel rest

/-- `processEmphasis`, bold pass: `/\*\*([^*]+)\*\*/g` (replacement `$1`,
unescaped). -/
def boldGo : Nat → List Char → List Char
  | _, [] => []
  | 0, s => s
  | fuel + 1, c :: rest =>
    if c = '*' ∧ rest.head? = some '*' then
      let r1 := rest.drop 1
      let body := r1.takeWhile (fun d => d ≠ '*')
      if body ≠ [] ∧ "**".toList.isPrefixOf (r1.drop body.length) then
        "<strong>".toList ++ body ++ "</strong>".toList ++
          boldGo fuel ((r1.drop body.length).drop 2)
      else c :: boldGo fuel rest
    else c :: boldGo fuel rest

/-- `processEmphasis`, italic pass: `/\*([^*]+)\*/g`. -/
def italicGo : Nat → List Char → List Char
  | _, [] => []
  | 0, s => s
  | fuel + 1, c :: rest =>
    if c = '*' then
      let body := rest.takeWhile (fun d => d ≠ '*')
      if body ≠ [] ∧ (rest.drop body.length).head? = some '*' then
        "<em>".toList ++ body ++ "</em>".toList ++
          italicGo fuel ((rest.drop body.length).drop 1)
      else c :: italicGo fuel rest
    else c :: italicGo fuel rest

/-- `processEmphasis`: code, then bold, then italic. -/
def processEmphasis (html : List Char) : List Char :=
  let h1 := codeSpanGo html.length html
  let h2 := boldGo h1.length h1
  italicGo h2.length h2

/-- `processVideos`: per `'\n'`-split line, when the trimmed line is a video
URL the whole line is replaced by the embed of the trimmed line. -/
def processVideos (html : List Char) : List Char :=
  joinLF ((splitOnChar '\n' html).map (fun line =>
    if isVideoUrl (trim line) then convertVideoToEmbed (trim line) else line))

/-- `WordPressMarkdownParser.parse`. -/
def parse (content : List Char) (options : MarkdownOptions) : List Char :=
  let html := joinLF ((splitOnChar '\n' content).map
    (fun line => processLine (trim line) options))
  let html := processHeaders html
  let html := processBlockquotes html
  let html := processLists html
  let html := processCodeBlocks html
  let html := processLinks html
  let html := processEmphasis html
  if options.allowVideos then processVideos html else html

end WordPressMarkdownParser

/-! ## autoFixReadme (autoFix.ts) -/

namespace AutoFix

/-- `options.multiLineStyle` (default `'indented'`). -/
inductive FixStyle where
  | indented
  | fenced
deriving DecidableEq, Repr

/-- Tags for the change-log strings of `autoFixReadme`; each constructor
corresponds to one message template and carries the values it interpolates
(line numbers are 1-based, as in the messages). -/
inductive FixChange where
  | normalizedHeading (line : Nat)
  | addedTrailingEquals (line : Nat)
  | removedEmptyFence (line : Nat)
  | convertedSingleLineFence (line : Nat)
  | removedLanguageHint (lang : List Char) (line : Nat)
  | normalizedMixedIndent (line : Nat)
  | normalizedFencedBlock (lines : Nat) (line : Nat)
  | convertedIndentedBlock (lines : Nat) (line : Nat)
  | convertedHashHeading (level : Nat) (line : Nat)
  | collapsedBlankLines
deriving DecidableEq, Repr

/-- `{ updated, changes }`. -/
structure AutoFixResult where
  updated : List Char
  changes : List FixChange
deriving DecidableEq, Repr

/-- The regex `/^(=+)(.+?)(=+)$/` of the malformed-heading branch, with the
JavaScript engine's backtracking semantics, returning
(leading run length, raw inner capture, trailing run length).

A match needs `=` at both ends, length ≥ 3, and no `'\r'`/`'\n'` (any such
character would be interior, and the lazy `(.+?)` group must cover every
interior non-`=` character, which `.` cannot).  When the line is entirely
`=`, the greedy leading group backtracks to length − 2, leaving a one-`=`
capture and a one-`=` trailing group.  Otherwise the greedy leading group
keeps the whole leading run, and the lazy capture leaves the maximal
trailing run to the final group. -/
def malformedMatch (t : List Char) : Option (Nat × List Char × Nat) :=
  if t.head? = some '=' ∧ t.getLast? = some '=' ∧ 3 ≤ t.length ∧ '\r' ∉ t ∧ '\n' ∉ t then
    if t.all (fun c => c = '=') then some (t.length - 2, ['='], 1)
    else some (eqRunLead t, (t.drop (eqRunLead t)).take (t.length - eqRunLead t - eqRunTrail t),
               eqRunTrail t)
  else none

/-- `/^=+\s+.+$/.test(trimmed)`: a non-empty `=` run, mandatory whitespace,
then a non-empty `.`-matchable remainder reaching the end of the line.  On a
*trimmed* line (the only way the source uses it) the remainder after the
maximal whitespace run is non-empty whenever the whitespace run is, and the
`.+` part must be free of `'\r'`/`'\n'`. -/
def eqMissingTrail (t : List Char) : Bool :=
  let p := eqRunLead t
  let rest := t.drop p
  0 < p ∧ rest ≠ [] ∧ (rest.head?.map isJsWs).getD false ∧
    (let tl := rest.dropWhile isJsWs
     tl ≠ [] ∧ '\r' ∉ tl ∧ '\n' ∉ tl)

/-- `/^=+\s+.+\s+=+$/.test(trimmed)`.  The leading `=+` is forced to the
whole leading run and the final `=+` to the whole trailing run (a shorter
choice would place `=` against a `\s`); the two mandatory whitespace runs
are then some non-empty prefix and suffix of the region between the runs,
and `.+` needs the remaining middle non-empty and `'\r'`/`'\n'`-free.  The
search below tries every admissible pair of whitespace lengths. -/
def eqFullPattern (t : List Char) : Bool :=
  let p := eqRunLead t
  let s := eqRunTrail t
  0 < p ∧ 0 < s ∧ p + s < t.length ∧
    (let midReg := (t.drop p).take (t.length - p - s)
     let a := (midReg.takeWhile isJsWs).length
     let b := (midReg.reverse.takeWhile isJsWs).length
     (List.range' 1 a).any (fun w1 => (List.range' 1 b).any (fun w2 =>
       let region := (midReg.drop w1).take (midReg.length - w1 - w2)
       region ≠ [] ∧ '\r' ∉ region ∧ '\n' ∉ region)))

/-- The malformed-`=`-heading branch of the `autoFixReadme` loop, as a pure
per-line step: `some (replacement, change)` when the branch `continue`s,
`none` when it falls through to the fence/hash handling.  `i` is the 0-based
line index. -/
def eqStep (line : List Char) (i : Nat) : Option (List Char × FixChange) :=
  let t := trim line
  if t.head? = some '=' then
    match malformedMatch t with
    | some (lead, innerRaw, tra) =>
      if lead = 3 ∧ tra = 3 then none
      else
        let isSection := 2 ≤ lead ∨ 2 ≤ tra
        let normalized :=
          if isSection then "== ".toList ++ trim innerRaw ++ " ==".toList
          else "= ".toList ++ trim innerRaw ++ " =".toList
        if normalized ≠ line then some (normalized, .normalizedHeading (i + 1)) else none
    | none =>
      if eqMissingTrail t ∧ ¬ eqFullPattern t then
        let inner := trim ((t.drop (eqRunLead t)).dropWhile isJsWs)
        some ((if "==".toList.isPrefixOf t then "== ".toList ++ inner ++ " ==".toList
               else "= ".toList ++ inner ++ " =".toList), .addedTrailingEquals (i + 1))
      else none
  else none

/-- The character class `\w`. -/
def isWordChar (c : Char) : Bool := c.isAlpha || c.isDigit || c = '_'

/-- `/^```(\w+)?\s*$/`: an opening fence; returns the optional language tag. -/
def fenceOpen (line : List Char) : Option (Option (List Char)) :=
  if "```".toList.isPrefixOf line then
    let r := line.drop 3
    let lang := r.takeWhile isWordChar
    if (r.drop lang.length).all isJsWs then
      some (if lang = [] then none else some lang)
    else none
  else none

/-- `/^```\s*$/`: a closing fence. -/
def fenceCloseTest (l : List Char) : Bool :=
  "```".toList.isPrefixOf l ∧ (l.drop 3).all isJsWs

/-- `content.replace(/`/g, '\\`')` of the single-line-fence conversion. -/
def escapeBackticks (s : List Char) : List Char :=
  s.flatMap (fun c => if c = '`' then ['\\', '`'] else [c])

/-- `normalizeBlockIndent`: detect mixed leading tab/space indentation
(returned flag) and expand one leading tab per line to four spaces
(`replace(/^\t/g, '    ')` only rewrites at index 0). -/
def normalizeBlockIndent (block : List (List Char)) : List (List Char) × Bool :=
  (block.map (fun l => if l.head? = some '\t' then ' ' :: ' ' :: ' ' :: ' ' :: l.tail else l),
   block.any (fun l => l.head? = some '\t') ∧ block.any (fun l => l.head? = some ' '))

/-- `/\s+#{1,6}\s*$/` removal (non-global `replace`): strip a trailing run
of 1–6 `#` together with the whitespace run before it and any trailing
whitespace after it; any match must use exactly the trailing `#` run (a
partial run would abut another `#`), so there is no match when that run is
empty, longer than 6, or not preceded by whitespace. -/
def stripTrailingHashes (tp : List Char) : List Char :=
  let rev := tp.reverse
  let w2 := (rev.takeWhile isJsWs).length
  let hrun := ((rev.drop w2).takeWhile (fun c => c = '#')).length
  let w1 := (((rev.drop w2).drop hrun).takeWhile isJsWs).length
  if 1 ≤ hrun ∧ hrun ≤ 6 ∧ 1 ≤ w1 then tp.take (tp.length - w2 - hrun - w1) else tp

/-- `replace(/\s{2,}/g, ' ')`: each whitespace run of length ≥ 2 becomes a
single space (a lone whitespace character is kept as it is). -/
def collapseWsRunsGo (prevWs : Bool) : List Char → List Char
  | [] => []
  | c :: rest =>
    if isJsWs c then
      if prevWs then collapseWsRunsGo true rest
      else
        match rest.head? with
        | some d => if isJsWs d then ' ' :: collapseWsRunsGo true rest
                    else c :: collapseWsRunsGo true rest
        | none => c :: collapseWsRunsGo true rest
    else c :: collapseWsRunsGo false rest

/-- `replace(/\s{2,}/g, ' ')` entry point: no run is in progress at the
start. -/
def collapseWsRuns (s : List Char) : List Char := collapseWsRunsGo false s

/-- `/^(#{1,6})(.*)$/`: level (capped at six by the greedy bounded
quantifier) and the raw remainder; `(.*)$` forbids `'\r'`/`'\n'` anywhere in
the line. -/
def hashMatch (line : List Char) : Option (Nat × List Char) :=
  let hs := line.takeWhile (fun c => c = '#')
  if hs ≠ [] ∧ '\r' ∉ line ∧ '\n' ∉ line then
    some (min hs.length 6, line.drop (min hs.length 6))
  else none

/-- The hash-heading branch of the `autoFixReadme` loop as a pure per-line
step: `some (text, change?)` when the branch `continue`s (the change is
`none` when the converted text already equals the line), `none` when it
falls through to the final plain push. -/
def hashStep (line : List Char) (i : Nat) : Option (List Char × Option FixChange) :=
  match hashMatch line with
  | none => none
  | some (level, titlePortion) =>
    let tp := titlePortion.dropWhile isJsWs
    if tp ≠ [] then
      let cleaned := collapseWsRuns (trim (stripTrailingHashes tp))
      if cleaned ≠ [] then
        let converted :=
          if level ≤ 2 then "== ".toList ++ cleaned ++ " ==".toList
          else "= ".toList ++ cleaned ++ " =".toList
        some (converted,
          if converted ≠ line then some (.convertedHashHeading level (i + 1)) else none)
      else none
    else none

/-- The main `while` loop of `autoFixReadme`: per line, the malformed-`=`
heading branch, then fence collection, then the hash-heading branch, then a
plain push.  `i` is the 0-based index of the current line.  Every iteration
consumes at least one line, so the loop runs at most once per line; the
first argument counts the iterations still allowed and is initialized to
the number of lines, making the `0` fallback unreachable. -/
def autoGo (style : FixStyle) : Nat → Nat → List (List Char) → List (List Char) × List FixChange
  | _, _, [] => ([], [])
  | 0, _, line :: rest => (line :: rest, [])
  | fuel + 1, i, line :: rest =>
    match eqStep line i with
    | some (nl, ch) =>
      let (out, chs) := autoGo style fuel (i + 1) rest
      (nl :: out, ch :: chs)
    | none =>
      match fenceOpen line with
      | some language =>
        let block := rest.takeWhile (fun l => ¬ fenceCloseTest l)
        let rest2 := rest.drop block.length
        let closed := rest2 ≠ []
        let nexti := i + 1 + block.length + (if closed then 1 else 0)
        let restAfter := if closed then rest2.drop 1 else rest2
        let (out, chs) := autoGo style fuel nexti restAfter
        if block = [] then (out, .removedEmptyFence (i + 1) :: chs)
        else if block.length = 1 then
          (('`' :: escapeBackticks (trim (block.headD [])) ++ ['`']) :: out,
           .convertedSingleLineFence (i + 1) :: chs)
        else
          match style with
          | .fenced =>
            let (normBlock, mixed) := normalizeBlockIndent block
            (("```".toList ++ (language.getD [])) :: (normBlock ++ ("```".toList :: out)),
             (if mixed then [FixChange.normalizedMixedIndent (i + 1)] else []) ++
               (.normalizedFencedBlock block.length (i + 1) :: chs))
          | .indented =>
            let (normBlock, mixed) := normalizeBlockIndent block
            (normBlock.map (fun b => "    ".toList ++ b.dropWhile isJsWs) ++ out,
             (match language with
              | some lang => [FixChange.removedLanguageHint lang (i + 1)]
              | none => []) ++
               (if mixed then [FixChange.normalizedMixedIndent (i + 1)] else []) ++
               (.convertedIndentedBlock block.length (i + 1) :: chs))
      | none =>
        match hashStep line i with
        | some (nl, ch?) =>
          let (out, chs) := autoGo style fuel (i + 1) rest
          (nl :: out, (match ch? with | some c => [c] | none => []) ++ chs)
        | none =>
          let (out, chs) := autoGo style fuel (i + 1) rest
          (line :: out, chs)

/-- The final blank-line normalization: whitespace-only lines become empty
lines, at most two consecutive; the third blank of a run logs one change. -/
def collapseBlank : Nat → List (List Char) → List (List Char) × List FixChange
  | _, [] => ([], [])
  | blankCount, l :: ls =>
    if trim l = [] then
      let bc := blankCount + 1
      let (out, chs) := collapseBlank bc ls
      if bc ≤ 2 then ([] :: out, chs)
      else if bc = 3 then (out, .collapsedBlankLines :: chs)
      else (out, chs)
    else
      let (out, chs) := collapseBlank 0 ls
      (l :: out, chs)

/-- `autoFixReadme`. -/
def autoFixReadme (raw : List Char) (style : FixStyle) : AutoFixResult :=
  let lines := splitCRLF raw
  let (output, chs1) := autoGo style lines.length 0 lines
  let (normalized, chs2) := collapseBlank 0 output
  { updated := joinLF normalized, changes := chs1 ++ chs2 }

/-- Every `'\r'` in the string is immediately followed by `'\n'`, i.e. the
carriage returns all occur as part of CRLF line endings (a lone `'\r'` is
not a line separator for `split(/\r?\n/)` and survives inside its line). -/
def crOk : List Char → Bool
  | [] => true
  | c :: rest => (c != '\r' || rest.head? == some '\n') && crOk rest

/-- The per-line text rewrite applied by the `autoFixReadme` loop on a line
that is not part of a fenced block: the malformed-`=`-heading replacement if
that branch fires, else the hash-heading replacement if that branch fires,
else the line itself.  The replacement text does not depend on the line
index, so index `0` is used. -/
def fixLineText (line : List Char) : List Char :=
  match eqStep line 0 with
  | some (nl, _) => nl
  | none =>
    match hashStep line 0 with
    | some (nl, _) => nl
    | none => line

end AutoFix

/-! ## Concrete sample inputs used by the claim theorems -/

/-- A header with every required field present and well-formed, producing no
header diagnostics. -/
def sampleHeader : ReadmeParser.ReadmeHeader :=
  { pluginName := "My Plugin".toList
    contributors := ["john".toList]
    donateLink := none
    tags := ["a".toList]
    requiresAtLeast := "5.0".toList
    testedUpTo := "6.5".toList
    stableTag := "1.0".toList
    requiresPHP := none
    license := "GPLv2".toList
    licenseURI := none
    shortDescription := "A sufficiently long short description here.".toList }

/-- A parsed readme with a clean header, no sections and empty raw content:
the validator produces zero errors and exactly the five
missing-recommended-section warnings on it. -/
def sampleReadme : ReadmeParser.ParsedReadme :=
  { header := sampleHeader, sections := [], rawContent := [], errors := [], warnings := [] }

/-- `sampleReadme` with raw content `"provided"`. -/
def providedReadme : ReadmeParser.ParsedReadme :=
  { sampleReadme with rawContent := "provided".toList }

/-- Two parsed readmes agreeing on header, sections and raw content but
with different parser-seeded diagnostics. -/
def seededReadme : ReadmeParser.ParsedReadme :=
  { sampleReadme with
      errors := [ReadmeParser.ParseMsg.pluginNameRequired]
      warnings := [ReadmeParser.ParseMsg.maxTagsRecommended] }

/-! ## Claim theorems -/

/-- C1 (code bug): the claim says `ReadmeValidator.validate` scores
100 − 15 per error − 5 per warning + bonuses, but `calculateScore` iterates
only the `errors` array (whose members all have type `'error'`), contrary to
its own "Deduct points for errors and warnings" comment — the `: 5` branch
of its ternary is dead.  On `sampleReadme` the code produces five warnings,
no errors and no bonuses, yet returns a score of 100 where the claimed
formula gives 75. -/
theorem c1_score_ignores_warnings :
    (ReadmeValidator.validate sampleReadme).score = 100 ∧
    ((ReadmeValidator.validate sampleReadme).errors.filter
      (fun e => e.type == ReadmeValidator.VType.error)).length = 0 ∧
    (ReadmeValidator.validate sampleReadme).warnings.length = 5 := by
  refine ⟨by decide, by decide, by decide⟩

/-- C4 (code bug): the claim says the promotional-language check matches
with word boundaries so that `"provided"` does not trigger a `"pro"`
warning; the source's `validateContent` instead uses a naive
`content.includes(word)` substring test, so `"provided"` *does* produce the
`"pro"` warning (and `"pro version"` produces the same one). -/
theorem c4_promotional_scan_is_substring :
    (ReadmeValidator.contentWarnings "provided".toList).map (fun e => e.message) =
      [ReadmeValidator.VMsg.promotional "pro".toList] ∧
    (ReadmeValidator.contentWarnings "pro version".toList).map (fun e => e.message) =
      [ReadmeValidator.VMsg.promotional "pro".toList] ∧
    (ReadmeValidator.VMsg.promotional "pro".toList) ∈
      ((ReadmeValidator.validate providedReadme).warnings.map (fun e => e.message)) := by
  refine ⟨by decide, by decide, by decide⟩

/-- C8: `ReadmeValidator.validate` is independent of the parser-seeded
diagnostics: two parsed readmes that agree on header, sections and raw
content validate identically, whatever their `errors`/`warnings` arrays. -/
theorem c8_validate_ignores_seeded_diagnostics
    (r1 r2 : ReadmeParser.ParsedReadme)
    (hh : r1.header = r2.header) (hs : r1.sections = r2.sections)
    (hr : r1.rawContent = r2.rawContent) :
    ReadmeValidator.validate r1 = ReadmeValidator.validate r2 := by
  simp only [ReadmeValidator.validate, ReadmeValidator.calculateScore, hh, hs, hr]

/-- Witness for C8: `sampleReadme` and `seededReadme` differ exactly in the
parser-seeded diagnostics and validate identically. -/
theorem c8_validate_ignores_seeded_diagnostics_witness :
    sampleReadme.errors ≠ seededReadme.errors ∧
    sampleReadme.warnings ≠ seededReadme.warnings ∧
    ReadmeValidator.validate sampleReadme = ReadmeValidator.validate seededReadme :=
  ⟨by decide, by decide,
    c8_validate_ignores_seeded_diagnostics sampleReadme seededReadme rfl rfl rfl⟩

namespace ReadmeValidator

/-- Membership in a guarded push. -/
theorem mem_warnIf {c : Prop} [Decidable c] {w e : ValidationError} :
    e ∈ warnIf c w ↔ c ∧ e = w := by
  unfold warnIf
  split <;> simp_all

/-- Every element of the required-field loop's output has type `error`. -/
theorem requiredFieldErrors_type (h : ReadmeParser.ReadmeHeader) :
    ∀ e ∈ requiredFieldErrors h, e.type = VType.error := by
  intro e he
  simp only [requiredFieldErrors, List.mem_map] at he
  obtain ⟨f, _, rfl⟩ := he
  rfl

/-- Every element of `versionFormatWarning` has type `warning`. -/
theorem versionFormatWarning_type (v : List Char) (f : VField) :
    ∀ e ∈ versionFormatWarning v f, e.type = VType.warning := by
  intro e he
  unfold versionFormatWarning at he
  split at he
  · simp at he
  · obtain ⟨_, rfl⟩ := mem_warnIf.mp he
    rfl

/-- Membership in a two-branch `if` over lists. -/
theorem mem_ite_list {c : Prop} [Decidable c] {l1 l2 : List ValidationError}
    {e : ValidationError} :
    e ∈ (if c then l1 else l2) ↔ (c ∧ e ∈ l1) ∨ (¬ c ∧ e ∈ l2) := by
  split <;> simp_all

/-- Every element of `headerWarnings` has type `warning`. -/
theorem headerWarnings_type (h : ReadmeParser.ReadmeHeader) :
    ∀ e ∈ headerWarnings h, e.type = VType.warning := by
  intro e
  unfold headerWarnings
  rcases h.requiresPHP with _ | v1 <;> rcases h.donateLink with _ | v2 <;>
    rcases h.licenseURI with _ | v3 <;>
  · intro he
    simp only [versionFormatWarning, List.mem_append, List.mem_flatMap, mem_warnIf,
      mem_ite_list, List.not_mem_nil] at he
    aesop

/-- Every element of `sectionWarn` has type `warning`. -/
theorem sectionWarn_type (s : ReadmeParser.ReadmeSection) :
    ∀ e ∈ sectionWarn s, e.type = VType.warning := by
  intro e he
  unfold sectionWarn at he
  simp only [List.mem_append, List.mem_flatMap, mem_warnIf, mem_ite_list,
    List.mem_singleton, List.not_mem_nil] at he
  aesop

/-- Every element of `sectionWarnings` has type `warning`. -/
theorem sectionWarnings_type (sections : List ReadmeParser.ReadmeSection) :
    ∀ e ∈ sectionWarnings sections, e.type = VType.warning := by
  intro e he
  unfold sectionWarnings at he
  simp only [List.mem_append, List.mem_flatMap, mem_warnIf] at he
  rcases he with (⟨_, _, _, rfl⟩ | ⟨s, _, hs⟩) | hm
  · rfl
  · exact sectionWarn_type s e hs
  · rcases sections with _ | ⟨s0, rest⟩
    · simp at hm
    · obtain ⟨_, rfl⟩ := mem_warnIf.mp hm
      rfl

/-- Every element of `contentWarnings` has type `warning`. -/
theorem contentWarnings_type (raw : List Char) :
    ∀ e ∈ contentWarnings raw, e.type = VType.warning := by
  intro e he
  unfold contentWarnings at he
  simp only [List.mem_append, List.mem_flatMap, mem_warnIf] at he
  rcases he with ⟨_, _, _, rfl⟩ | ⟨_, rfl⟩ <;> rfl

/-- Every element of `fileSizeWarnings` has type `warning`. -/
theorem fileSizeWarnings_type (raw : List Char) :
    ∀ e ∈ fileSizeWarnings raw, e.type = VType.warning := by
  intro e he
  obtain ⟨_, rfl⟩ := mem_warnIf.mp he
  rfl

/-- The warning list assembled by `validate` has only `warning`-typed
elements. -/
theorem validateWarnings_type (r : ReadmeParser.ParsedReadme) :
    ∀ e ∈ headerWarnings r.header ++ sectionWarnings r.sections ++
        contentWarnings r.rawContent ++ fileSizeWarnings r.rawContent,
      e.type = VType.warning := by
  intro e he
  simp only [List.mem_append] at he
  rcases he with ((h | h) | h) | h
  · exact headerWarnings_type _ e h
  · exact sectionWarnings_type _ e h
  · exact contentWarnings_type _ e h
  · exact fileSizeWarnings_type _ e h

end ReadmeValidator

/-- C9: for every parsed readme, the `ValidationResult` of
`ReadmeValidator.validate` satisfies: `isValid` holds exactly when no
element of the returned `errors` array has type `'error'`; that array is
the error-typed diagnostics followed by every warning-typed diagnostic; and
`warnings` is exactly that warning suffix. -/
theorem c9_validate_result_invariants (r : ReadmeParser.ParsedReadme) :
    ((ReadmeValidator.validate r).isValid = true ↔
      ∀ e ∈ (ReadmeValidator.validate r).errors, e.type ≠ ReadmeValidator.VType.error) ∧
    (ReadmeValidator.validate r).errors =
      ((ReadmeValidator.validate r).errors.filter
        (fun e => e.type == ReadmeValidator.VType.error)) ++
        (ReadmeValidator.validate r).warnings ∧
    (∀ e ∈ (ReadmeValidator.validate r).warnings, e.type = ReadmeValidator.VType.warning) := by
  have hE := ReadmeValidator.requiredFieldErrors_type r.header
  have hW := ReadmeValidator.validateWarnings_type r
  simp only [ReadmeValidator.validate]
  set E := ReadmeValidator.requiredFieldErrors r.header with hEdef
  set W := ReadmeValidator.headerWarnings r.header ++
    ReadmeValidator.sectionWarnings r.sections ++
    ReadmeValidator.contentWarnings r.rawContent ++
    ReadmeValidator.fileSizeWarnings r.rawContent with hWdef
  have hfilter : (E ++ W).filter (fun e => e.type == ReadmeValidator.VType.error) = E := by
    rw [List.filter_append]
    have h1 : E.filter (fun e => e.type == ReadmeValidator.VType.error) = E :=
      List.filter_eq_self.mpr (fun e he => by simp [hE e he])
    have h2 : W.filter (fun e => e.type == ReadmeValidator.VType.error) = [] := by
      rw [List.filter_eq_nil_iff]
      intro e he
      simp [hW e he]
    rw [h1, h2, List.append_nil]
  refine ⟨?_, by rw [hfilter], fun e he => hW e he⟩
  constructor
  · intro hvalid e he
    have hE0 : E = [] := by
      have := of_decide_eq_true hvalid
      exact List.length_eq_zero.mp this
    rw [hE0, List.nil_append] at he
    rw [hW e he]
    intro hcontra
    cases hcontra
  · intro hall
    apply decide_eq_true
    rcases hE0 : E with _ | ⟨e0, rest⟩
    · rfl
    · exfalso
      have he0 : e0 ∈ E ++ W := by rw [hE0]; simp
      have := hall e0 he0
      rw [hE0] at hE
      exact this (hE e0 (by simp))



theorem eqeq_isPrefixOf_iff (l : List Char) :
    ([ '=', '=' ].isPrefixOf l = true) ↔ 2 ≤ eqRunLead l := by
  rcases l with _ | ⟨a, _ | ⟨b, t⟩⟩
  · simp [List.isPrefixOf, eqRunLead]
  · by_cases ha : a = '=' <;>
      simp [List.isPrefixOf, eqRunLead, List.takeWhile_cons, ha]
  · by_cases ha : a = '=' <;> by_cases hb : b = '=' <;>
      simp [List.isPrefixOf, eqRunLead, List.takeWhile_cons, ha, hb] <;>
      first
      | exact Ne.symm hb
      | exact Ne.symm ha
      | exact fun _ => Ne.symm hb

theorem eqeq_isSuffixOf_iff (l : List Char) :
    ([ '=', '=' ].isSuffixOf l = true) ↔ 2 ≤ eqRunTrail l := by
  show ([ '=', '=' ].reverse.isPrefixOf l.reverse = true) ↔ 2 ≤ eqRunTrail l
  have h2 : ([ '=', '=' ] : List Char).reverse = [ '=', '=' ] := rfl
  rw [h2, eqeq_isPrefixOf_iff]
  rfl

theorem lead_three (l : List Char) (h : 3 ≤ eqRunLead l) :
    ∃ t, l = '=' :: '=' :: '=' :: t := by
  rcases l with _ | ⟨a, _ | ⟨b, _ | ⟨c, t⟩⟩⟩
  · simp [eqRunLead] at h
  · by_cases ha : a = '=' <;> simp [eqRunLead, List.takeWhile_cons, ha] at h
  · by_cases ha : a = '=' <;> by_cases hb : b = '=' <;>
      simp [eqRunLead, List.takeWhile_cons, ha, hb] at h
  · by_cases ha : a = '=' <;> by_cases hb : b = '=' <;> by_cases hc : c = '=' <;>
      simp [eqRunLead, List.takeWhile_cons, ha, hb, hc] at h <;>
      subst_vars <;> exact ⟨t, rfl⟩

theorem head?_take {α : Type} (n : Nat) (x : List α) :
    (x.take n).head? = if n = 0 then none else x.head? := by
  cases n <;> cases x <;> simp

theorem interior_reverse (l : List Char) :
    ((l.drop 2).take (l.length - 4)).reverse = (l.reverse.drop 2).take (l.length - 4) := by
  rcases Nat.lt_or_ge l.length 4 with h4 | h4
  · have h1 : l.length - 4 = 0 := by omega
    simp [h1]
  · rw [List.reverse_take]
    have h2 : (l.drop 2).length - (l.length - 4) = 2 := by
      simp only [List.length_drop]
      omega
    rw [h2, List.reverse_drop, List.drop_take]
    have h3 : l.length - 2 - 2 = l.length - 4 := by omega
    rw [h3]

theorem sectionHeaderMatch_eq_none (l : List Char)
    (h : eqRunLead l ≠ 2 ∨ eqRunTrail l ≠ 2) :
    ReadmeParser.sectionHeaderMatch l = none := by
  unfold ReadmeParser.sectionHeaderMatch
  by_cases hguard : ([ '=', '=' ].isPrefixOf l = true) ∧ ([ '=', '=' ].isSuffixOf l = true)
  · rw [if_pos hguard]
    have hlead : 2 ≤ eqRunLead l := (eqeq_isPrefixOf_iff l).mp hguard.1
    have htrail : 2 ≤ eqRunTrail l := (eqeq_isSuffixOf_iff l).mp hguard.2
    have hcase : 3 ≤ eqRunLead l ∨ 3 ≤ eqRunTrail l := by omega
    rw [if_neg]
    rintro ⟨hlen, hhead, hlast⟩
    rcases hcase with h3 | h3
    · obtain ⟨t, rfl⟩ := lead_three l h3
      rw [head?_take] at hhead
      split at hhead
      · simp at hhead
      · simp [List.drop] at hhead
        exact absurd hhead (by decide)
    · have h3r : 3 ≤ eqRunLead l.reverse := h3
      obtain ⟨t, ht⟩ := lead_three l.reverse h3r
      rw [List.getLast?_eq_head?_reverse, interior_reverse, head?_take] at hlast
      split at hlast
      · simp at hlast
      · rw [ht] at hlast
        simp [List.drop] at hlast
        exact absurd hlast (by decide)
  · rw [if_neg hguard]

theorem parseSections_nil (lines : List (List Char))
    (h : ∀ l ∈ lines, ReadmeParser.sectionHeaderMatch l = none) :
    ReadmeParser.parseSections lines = [] := by
  unfold ReadmeParser.parseSections
  suffices hgen : ∀ (ls : List (List Char)) (i : Nat),
      (∀ l ∈ ls, ReadmeParser.sectionHeaderMatch l = none) →
      ReadmeParser.sectionsGo i ls none [] = [] by
    exact hgen lines 0 h
  intro ls
  induction ls with
  | nil => intro i _; rfl
  | cons l rest ih =>
    intro i hall
    have hl : ReadmeParser.sectionHeaderMatch l = none := hall l (by simp)
    simp only [ReadmeParser.sectionsGo, hl]
    exact ih (i + 1) (fun x hx => hall x (by simp [hx]))

/-- C5: a line whose `=` counts are unequal or wrong for the section shape
(leading or trailing `=`-run not exactly two) never matches
`ReadmeParser.SECTION_HEADER` and so never yields a section titled from it;
a document whose every line is malformed this way parses to zero sections;
in particular `"== Description ="` plus body text parses to an empty
section list. -/
theorem c5_malformed_heading_makes_no_section :
    (∀ l : List Char, eqRunLead l ≠ 2 ∨ eqRunTrail l ≠ 2 →
      ReadmeParser.sectionHeaderMatch l = none) ∧
    (∀ lines : List (List Char),
      (∀ l ∈ lines, eqRunLead l ≠ 2 ∨ eqRunTrail l ≠ 2) →
      ReadmeParser.parseSections lines = []) ∧
    (ReadmeParser.parse "== Description =\nBody text".toList).sections = [] := by
  refine ⟨sectionHeaderMatch_eq_none,
    fun lines h => parseSections_nil lines
      (fun l hl => sectionHeaderMatch_eq_none l (h l hl)), by decide⟩

/-- Witness for C5 at the concrete malformed heading `"== Description ="`. -/
theorem c5_malformed_heading_makes_no_section_witness :
    ReadmeParser.sectionHeaderMatch "== Description =".toList = none ∧
    ReadmeParser.parseSections ["== Description =".toList, "Body text".toList] = [] :=
  ⟨c5_malformed_heading_makes_no_section.1 "== Description =".toList (Or.inr (by decide)),
   c5_malformed_heading_makes_no_section.2.1 ["== Description =".toList, "Body text".toList]
     (by
       intro l hl
       simp only [List.mem_cons, List.not_mem_nil, or_false] at hl
       rcases hl with rfl | rfl <;> right <;> decide)⟩

namespace ReadmeParser

theorem findPluginName_none (lines : List (List Char))
    (h : ∀ l ∈ lines, pluginNameMatch (trim l) = none) :
    findPluginName lines = none := by
  induction lines with
  | nil => rfl
  | cons l ls ih =>
    unfold findPluginName
    rw [h l (by simp)]
    exact ih (fun x hx => h x (by simp [hx]))

theorem scanFields_donate_none (hp : Bool) (lines : List (List Char)) :
    ∀ (i : Nat) (st : FieldScan),
      st.donateLink = none →
      (∀ l ∈ lines, matchFieldLine donateStr (trim l) = none) →
      (scanFields hp i lines st).donateLink = none := by
  induction lines with
  | nil => intro i st hst _; simpa [scanFields] using hst
  | cons l ls ih =>
    intro i st hst hall
    simp only [scanFields, hall l (by simp)]
    split
    · simpa using hst
    · repeat' split
      all_goals apply ih _ _ _ (fun x hx => hall x (by simp [hx]))
      all_goals simp_all

theorem scanFields_contrib_none (hp : Bool) (lines : List (List Char)) :
    ∀ (i : Nat) (st : FieldScan),
      st.contributors = none →
      (∀ l ∈ lines, matchFieldLine contribStr (trim l) = none) →
      (scanFields hp i lines st).contributors = none := by
  induction lines with
  | nil => intro i st hst _; simpa [scanFields] using hst
  | cons l ls ih =>
    intro i st hst hall
    simp only [scanFields, hall l (by simp)]
    split
    · simpa using hst
    · repeat' split
      all_goals apply ih _ _ _ (fun x hx => hall x (by simp [hx]))
      all_goals simp_all

theorem scanFields_tags_none (hp : Bool) (lines : List (List Char)) :
    ∀ (i : Nat) (st : FieldScan),
      st.tags = none →
      (∀ l ∈ lines, matchFieldLine tagsStr (trim l) = none) →
      (scanFields hp i lines st).tags = none := by
  induction lines with
  | nil => intro i st hst _; simpa [scanFields] using hst
  | cons l ls ih =>
    intro i st hst hall
    simp only [scanFields, hall l (by simp)]
    split
    · simpa using hst
    · repeat' split
      all_goals apply ih _ _ _ (fun x hx => hall x (by simp [hx]))
      all_goals simp_all

theorem scanFields_requiresAtLeast_none (hp : Bool) (lines : List (List Char)) :
    ∀ (i : Nat) (st : FieldScan),
      st.requiresAtLeast = none →
      (∀ l ∈ lines, matchFieldLine requiresAtLeastStr (trim l) = none) →
      (scanFields hp i lines st).requiresAtLeast = none := by
  induction lines with
  | nil => intro i st hst _; simpa [scanFields] using hst
  | cons l ls ih =>
    intro i st hst hall
    simp only [scanFields, hall l (by simp)]
    split
    · simpa using hst
    · repeat' split
      all_goals apply ih _ _ _ (fun x hx => hall x (by simp [hx]))
      all_goals simp_all

theorem scanFields_testedUpTo_none (hp : Bool) (lines : List (List Char)) :
    ∀ (i : Nat) (st : FieldScan),
      st.testedUpTo = none →
      (∀ l ∈ lines, matchFieldLine testedUpToStr (trim l) = none) →
      (scanFields hp i lines st).testedUpTo = none := by
  induction lines with
  | nil => intro i st hst _; simpa [scanFields] using hst
  | cons l ls ih =>
    intro i st hst hall
    simp only [scanFields, hall l (by simp)]
    split
    · simpa using hst
    · repeat' split
      all_goals apply ih _ _ _ (fun x hx => hall x (by simp [hx]))
      all_goals simp_all

theorem scanFields_stableTag_none (hp : Bool) (lines : List (List Char)) :
    ∀ (i : Nat) (st : FieldScan),
      st.stableTag = none →
      (∀ l ∈ lines, matchFieldLine stableTagStr (trim l) = none) →
      (scanFields hp i lines st).stableTag = none := by
  induction lines with
  | nil => intro i st hst _; simpa [scanFields] using hst
  | cons l ls ih =>
    intro i st hst hall
    simp only [scanFields, hall l (by simp)]
    split
    · simpa using hst
    · repeat' split
      all_goals apply ih _ _ _ (fun x hx => hall x (by simp [hx]))
      all_goals simp_all

theorem scanFields_requiresPHP_none (hp : Bool) (lines : List (List Char)) :
    ∀ (i : Nat) (st : FieldScan),
      st.requiresPHP = none →
      (∀ l ∈ lines, matchFieldLine requiresPHPStr (trim l) = none) →
      (scanFields hp i lines st).requiresPHP = none := by
  induction lines with
  | nil => intro i st hst _; simpa [scanFields] using hst
  | cons l ls ih =>
    intro i st hst hall
    simp only [scanFields, hall l (by simp)]
    split
    · simpa using hst
    · repeat' split
      all_goals apply ih _ _ _ (fun x hx => hall x (by simp [hx]))
      all_goals simp_all

theorem scanFields_license_none (hp : Bool) (lines : List (List Char)) :
    ∀ (i : Nat) (st : FieldScan),
      st.license = none →
      (∀ l ∈ lines, matchFieldLine licenseStr (trim l) = none) →
      (scanFields hp i lines st).license = none := by
  induction lines with
  | nil => intro i st hst _; simpa [scanFields] using hst
  | cons l ls ih =>
    intro i st hst hall
    simp only [scanFields, hall l (by simp)]
    split
    · simpa using hst
    · repeat' split
      all_goals apply ih _ _ _ (fun x hx => hall x (by simp [hx]))
      all_goals simp_all

theorem scanFields_licenseURI_none (hp : Bool) (lines : List (List Char)) :
    ∀ (i : Nat) (st : FieldScan),
      st.licenseURI = none →
      (∀ l ∈ lines, matchFieldLine licenseURIStr (trim l) = none) →
      (scanFields hp i lines st).licenseURI = none := by
  induction lines with
  | nil => intro i st hst _; simpa [scanFields] using hst
  | cons l ls ih =>
    intro i st hst hall
    simp only [scanFields, hall l (by simp)]
    split
    · simpa using hst
    · repeat' split
      all_goals apply ih _ _ _ (fun x hx => hall x (by simp [hx]))
      all_goals simp_all

theorem scanFields_sdStart_none (lines : List (List Char)) :
    ∀ (i : Nat) (st : FieldScan), st.sdStart = none →
      (scanFields false i lines st).sdStart = none := by
  induction lines with
  | nil => intro i st hst; simpa [scanFields] using hst
  | cons l ls ih =>
    intro i st hst
    simp only [scanFields]
    split
    · simpa using hst
    · repeat' split
      all_goals apply ih
      all_goals simp_all

/-- Counterexample for C6: the claim says no header field of
`ReadmeParser.parse` is ever undefined, but the three optional fields are
passed through without a default, so a readme with no `Donate link:`,
`Requires PHP:` or `License URI:` line has them `undefined` (`none`). -/
theorem c6_unset_fields_cex :
    (parse "=== My Plugin ===\nContributors: john".toList).header.donateLink = none ∧
    (parse "=== My Plugin ===\nContributors: john".toList).header.requiresPHP = none ∧
    (parse "=== My Plugin ===\nContributors: john".toList).header.licenseURI = none := by
  refine ⟨by decide, by decide, by decide⟩

/-- C6 (amended): every *required* field of the header that is not set from
a matching header line defaults to the empty string (string fields) or the
empty list (`contributors`, `tags`), while the optional fields
`donateLink`, `requiresPHP` and `licenseURI` remain undefined (`none`)
rather than defaulting to the empty string. -/
theorem c6_unset_fields_defaults (lines : List (List Char)) :
    ((∀ l ∈ lines, pluginNameMatch (trim l) = none) →
      (parseHeader lines).pluginName = [] ∧ (parseHeader lines).shortDescription = []) ∧
    ((∀ l ∈ lines, matchFieldLine contribStr (trim l) = none) →
      (parseHeader lines).contributors = []) ∧
    ((∀ l ∈ lines, matchFieldLine tagsStr (trim l) = none) →
      (parseHeader lines).tags = []) ∧
    ((∀ l ∈ lines, matchFieldLine requiresAtLeastStr (trim l) = none) →
      (parseHeader lines).requiresAtLeast = []) ∧
    ((∀ l ∈ lines, matchFieldLine testedUpToStr (trim l) = none) →
      (parseHeader lines).testedUpTo = []) ∧
    ((∀ l ∈ lines, matchFieldLine stableTagStr (trim l) = none) →
      (parseHeader lines).stableTag = []) ∧
    ((∀ l ∈ lines, matchFieldLine licenseStr (trim l) = none) →
      (parseHeader lines).license = []) ∧
    ((∀ l ∈ lines, matchFieldLine donateStr (trim l) = none) →
      (parseHeader lines).donateLink = none) ∧
    ((∀ l ∈ lines, matchFieldLine requiresPHPStr (trim l) = none) →
      (parseHeader lines).requiresPHP = none) ∧
    ((∀ l ∈ lines, matchFieldLine licenseURIStr (trim l) = none) →
      (parseHeader lines).licenseURI = none) := by
  refine ⟨?_, ?_, ?_, ?_, ?_, ?_, ?_, ?_, ?_, ?_⟩
  · intro h
    have hpn := findPluginName_none lines h
    have hsd := scanFields_sdStart_none lines 0 {} rfl
    constructor
    · simp [parseHeader, hpn]
    · simp [parseHeader, hpn, hsd]
  · intro h
    have hc := scanFields_contrib_none ((findPluginName lines).isSome) lines 0 {} rfl h
    simp [parseHeader, hc]
  · intro h
    have hc := scanFields_tags_none ((findPluginName lines).isSome) lines 0 {} rfl h
    simp [parseHeader, hc]
  · intro h
    have hc := scanFields_requiresAtLeast_none ((findPluginName lines).isSome) lines 0 {} rfl h
    simp [parseHeader, hc]
  · intro h
    have hc := scanFields_testedUpTo_none ((findPluginName lines).isSome) lines 0 {} rfl h
    simp [parseHeader, hc]
  · intro h
    have hc := scanFields_stableTag_none ((findPluginName lines).isSome) lines 0 {} rfl h
    simp [parseHeader, hc]
  · intro h
    have hc := scanFields_license_none ((findPluginName lines).isSome) lines 0 {} rfl h
    simp [parseHeader, hc]
  · intro h
    have hc := scanFields_donate_none ((findPluginName lines).isSome) lines 0 {} rfl h
    simp [parseHeader, hc]
  · intro h
    have hc := scanFields_requiresPHP_none ((findPluginName lines).isSome) lines 0 {} rfl h
    simp [parseHeader, hc]
  · intro h
    have hc := scanFields_licenseURI_none ((findPluginName lines).isSome) lines 0 {} rfl h
    simp [parseHeader, hc]

/-- Witness for C6's amended statement on a one-line document with no
header fields. -/
theorem c6_unset_fields_defaults_witness :
    (ReadmeParser.parseHeader ["Hello world".toList]).contributors = [] ∧
    (ReadmeParser.parseHeader ["Hello world".toList]).donateLink = none :=
  ⟨(c6_unset_fields_defaults ["Hello world".toList]).2.1 (by decide),
   (c6_unset_fields_defaults ["Hello world".toList]).2.2.2.2.2.2.2.1 (by decide)⟩

end ReadmeParser

namespace ReadmeValidator


theorem mem_headingScanGo (e : ValidationError) (ls : List (List Char)) :
    ∀ k : Nat, (e ∈ headingScanGo k ls ↔
      ∃ j l, ls[j]? = some l ∧ (trim l).head? = some '=' ∧
        ¬ canonicalHeading (trim l) = true ∧
        e = { type := .error, message := .malformedHeading, line := some (k + j),
              suggestion := some (.headingSuggestion (computeHeadingSuggestion (trim l))) }) := by
  induction ls with
  | nil => intro k; simp [headingScanGo]
  | cons l rest ih =>
    intro k
    simp only [headingScanGo, List.mem_append]
    constructor
    · intro h
      rcases h with h | h
      · split at h
        · rename_i hcond
          simp only [List.mem_singleton] at h
          exact ⟨0, l, by simp, hcond.1, hcond.2, by simpa using h⟩
        · simp at h
      · obtain ⟨j, l', hget, hh, hc, he⟩ := (ih (k + 1)).mp h
        refine ⟨j + 1, l', by simpa using hget, hh, hc, ?_⟩
        rw [he]
        have h5 : k + 1 + j = k + (j + 1) := by omega
        rw [h5]
    · rintro ⟨j, l', hget, hh, hc, he⟩
      rcases j with _ | j
      · simp at hget
        subst hget
        left
        rw [if_pos ⟨hh, hc⟩]
        simp [he]
      · right
        refine (ih (k + 1)).mpr ⟨j, l', by simpa using hget, hh, hc, ?_⟩
        rw [he]
        have h5 : k + (j + 1) = k + 1 + j := by omega
        rw [h5]

/-- C3 (modelled from the spec; the heading-integrity scan of the stricter
validator variant is absent from the source snapshot): every raw line that
trims to something starting with `=` but matching none of the three
canonical heading shapes yields an error-typed diagnostic for that line
carrying the computed replacement suggestion, and no such error is produced
for a line that does match a canonical shape. -/
theorem c3_heading_integrity_scan (raw : List Char) (i : Nat) (l : List Char)
    (hl : (splitOnChar '\n' raw)[i]? = some l)
    (hstart : (trim l).head? = some '=') :
    (¬ canonicalHeading (trim l) = true →
      ({ type := .error, message := .malformedHeading, line := some (i + 1),
         suggestion := some (.headingSuggestion (computeHeadingSuggestion (trim l))) }
        : ValidationError) ∈ headingIntegrityErrors raw) ∧
    (canonicalHeading (trim l) = true →
      ∀ e ∈ headingIntegrityErrors raw, e.line ≠ some (i + 1)) := by
  constructor
  · intro hnc
    unfold headingIntegrityErrors
    refine (mem_headingScanGo _ _ 1).mpr ⟨i, l, hl, hstart, hnc, ?_⟩
    have h5 : i + 1 = 1 + i := by omega
    rw [h5]
  · intro hcanon e he hline
    obtain ⟨j, l', hget, hh, hc, he'⟩ := (mem_headingScanGo e _ 1).mp he
    rw [he'] at hline
    simp at hline
    have hji : j = i := by omega
    subst hji
    rw [hl] at hget
    cases hget
    exact hc hcanon

/-- Witness for C3 at the malformed line `"== Description ="`, whose
computed suggestion is `"== Description =="`. -/
theorem c3_heading_integrity_scan_witness :
    ({ type := .error, message := .malformedHeading, line := some 1,
       suggestion := some (.headingSuggestion
         (computeHeadingSuggestion (trim "== Description =".toList))) }
      : ValidationError) ∈ headingIntegrityErrors "== Description =\nBody".toList ∧
    computeHeadingSuggestion (trim "== Description =".toList) = "== Description ==".toList :=
  ⟨(c3_heading_integrity_scan "== Description =\nBody".toList 0 "== Description =".toList
      (by decide) (by decide)).1 (by decide), by decide⟩

end ReadmeValidator

namespace WordPressMarkdownParser

/-- On a string with no line terminators the `/gm` line mapper degenerates
to a single application of the per-line function. -/
theorem mapLinesGmGo_clean (f : List Char → List Char) (s : List Char)
    (h : ∀ c ∈ s, c ≠ '\n' ∧ c ≠ '\r') :
    ∀ acc, mapLinesGmGo f acc s = f (acc.reverse ++ s) := by
  induction s with
  | nil => intro acc; simp [mapLinesGmGo]
  | cons c rest ih =>
    intro acc
    have hc := h c (by simp)
    rw [mapLinesGmGo, if_neg (by simp [hc.1, hc.2])]
    rw [ih (fun x hx => h x (by simp [hx])) (c :: acc)]
    simp

theorem mapLinesGm_clean (f : List Char → List Char) (s : List Char)
    (h : ∀ c ∈ s, c ≠ '\n' ∧ c ≠ '\r') :
    mapLinesGm f s = f s := by
  rw [mapLinesGm, mapLinesGmGo_clean f s h []]
  simp

/-- C7: `processHeaders` converts a line of 3–6 `#` followed by a space and
text into the corresponding `<h3>`–`<h6>` element with the text as content,
and leaves `# `- and `## `-prefixed lines unconverted; `parse` wires this
pass into the full pipeline, as the concrete six-line document shows. -/
theorem c7_heading_conversion (t : List Char) (ht : t ≠ [])
    (hn : '\n' ∉ t) (hr : '\r' ∉ t) :
    processHeaders ('#' :: '#' :: '#' :: ' ' :: t) =
      "<h3>".toList ++ t ++ "</h3>".toList ∧
    processHeaders ('#' :: '#' :: '#' :: '#' :: ' ' :: t) =
      "<h4>".toList ++ t ++ "</h4>".toList ∧
    processHeaders ('#' :: '#' :: '#' :: '#' :: '#' :: ' ' :: t) =
      "<h5>".toList ++ t ++ "</h5>".toList ∧
    processHeaders ('#' :: '#' :: '#' :: '#' :: '#' :: '#' :: ' ' :: t) =
      "<h6>".toList ++ t ++ "</h6>".toList ∧
    processHeaders ('#' :: ' ' :: t) = '#' :: ' ' :: t ∧
    processHeaders ('#' :: '#' :: ' ' :: t) = '#' :: '#' :: ' ' :: t ∧
    parse "### Three\n#### Four\n##### Five\n###### Six\n# One\n## Two".toList
        defaultOptions =
      "<h3>Three</h3>\n<h4>Four</h4>\n<h5>Five</h5>\n<h6>Six</h6>\n# One\n## Two".toList := by
  have base : ∀ c ∈ t, c ≠ '\n' ∧ c ≠ '\r' :=
    fun c hc => ⟨fun h => hn (h ▸ hc), fun h => hr (h ▸ hc)⟩
  refine ⟨?_, ?_, ?_, ?_, ?_, ?_, by decide⟩ <;>
  · rw [processHeaders, mapLinesGm_clean _ _ (by
      repeat refine List.forall_mem_cons.mpr ⟨by decide, ?_⟩
      exact base)]
    simp [hashHeaderLine, List.isPrefixOf, ht]

/-- Witness for C7 at the line text `"Title"`. -/
theorem c7_heading_conversion_witness :
    processHeaders "### Title".toList = "<h3>Title</h3>".toList ∧
    processHeaders "## Title".toList = "## Title".toList :=
  ⟨(c7_heading_conversion "Title".toList (by decide) (by decide) (by decide)).1,
   (c7_heading_conversion "Title".toList (by decide) (by decide) (by decide)).2.2.2.2.2.1⟩

end WordPressMarkdownParser

namespace AutoFix

theorem splitCRLF_no_cr (s : List Char) (h : crOk s = true) :
    ∀ l ∈ splitCRLF s, '\r' ∉ l := by
  induction s using splitCRLF.induct with
  | case1 =>
    intro l hl
    simp [splitCRLF] at hl
    simp [hl]
  | case2 rest ih =>
    intro l hl
    simp [splitCRLF] at hl
    rcases hl with rfl | hl
    · simp
    · refine ih ?_ l hl
      simp [crOk] at h
      simp [crOk, h]
  | case3 rest ih =>
    intro l hl
    simp [splitCRLF] at hl
    rcases hl with rfl | hl
    · simp
    · refine ih ?_ l hl
      simp [crOk] at h
      exact h
  | case4 c rest h1 h2 heq ih =>
    intro l hl
    simp only [crOk, Bool.and_eq_true, Bool.or_eq_true, bne_iff_ne, beq_iff_eq] at h
    have hc : c ≠ '\r' := by
      rcases h.1 with hc | hh
      · exact hc
      · intro hcr
        rcases rest with _ | ⟨d, tl⟩
        · simp at hh
        · simp at hh
          exact h1 tl hcr (by rw [hh])
    rw [splitCRLF] at hl
    case x_1 => exact h1
    case x_2 => exact h2
    rw [heq] at hl
    simp at hl
    rw [hl]
    simp only [List.mem_singleton]
    exact fun hx => hc hx.symm
  | case5 c rest h1 h2 l' ls' heq ih =>
    intro l hl
    simp only [crOk, Bool.and_eq_true, Bool.or_eq_true, bne_iff_ne, beq_iff_eq] at h
    have hc : c ≠ '\r' := by
      rcases h.1 with hc | hh
      · exact hc
      · intro hcr
        rcases rest with _ | ⟨d, tl⟩
        · simp at hh
        · simp at hh
          exact h1 tl hcr (by rw [hh])
    rw [splitCRLF] at hl
    case x_1 => exact h1
    case x_2 => exact h2
    rw [heq] at hl
    simp at hl
    rcases hl with rfl | hl
    · intro hmem
      simp at hmem
      rcases hmem with hmem | hmem
      · exact hc hmem.symm
      · exact ih h.2 l' (by rw [heq]; simp) hmem
    · exact ih h.2 l (by rw [heq]; exact List.mem_cons_of_mem _ hl)


theorem mem_ltrim {c : Char} {s : List Char} (h : c ∈ ltrim s) : c ∈ s :=
  (List.dropWhile_sublist _).subset h

theorem mem_rtrim {c : Char} {s : List Char} (h : c ∈ rtrim s) : c ∈ s := by
  rw [rtrim, List.mem_reverse] at h
  exact List.mem_reverse.mp ((List.dropWhile_sublist _).subset h)

theorem mem_trim {c : Char} {s : List Char} (h : c ∈ trim s) : c ∈ s :=
  mem_ltrim (mem_rtrim h)

theorem mem_collapseWsRunsGo {c : Char} :
    ∀ (b : Bool) (s : List Char), c ∈ collapseWsRunsGo b s → c ∈ s ∨ c = ' ' := by
  intro b s
  induction s generalizing b with
  | nil => intro h; simp [collapseWsRunsGo] at h
  | cons d rest ih =>
    intro h
    rw [collapseWsRunsGo] at h
    split at h
    · split at h
      · rcases ih true h with h | h
        · exact Or.inl (List.mem_cons_of_mem _ h)
        · exact Or.inr h
      · split at h
        · split at h <;> rcases List.mem_cons.mp h with rfl | h
          · exact Or.inr rfl
          · rcases ih true h with h | h
            · exact Or.inl (List.mem_cons_of_mem _ h)
            · exact Or.inr h
          · exact Or.inl (List.mem_cons_self _ _)
          · rcases ih true h with h | h
            · exact Or.inl (List.mem_cons_of_mem _ h)
            · exact Or.inr h
        · rcases List.mem_cons.mp h with rfl | h
          · exact Or.inl (List.mem_cons_self _ _)
          · rcases ih true h with h | h
            · exact Or.inl (List.mem_cons_of_mem _ h)
            · exact Or.inr h
    · rcases List.mem_cons.mp h with rfl | h
      · exact Or.inl (List.mem_cons_self _ _)
      · rcases ih false h with h | h
        · exact Or.inl (List.mem_cons_of_mem _ h)
        · exact Or.inr h

theorem mem_escapeBackticks {c : Char} {s : List Char} (h : c ∈ escapeBackticks s) :
    c ∈ s ∨ c = '\\' := by
  rw [escapeBackticks, List.mem_flatMap] at h
  obtain ⟨d, hd, hc⟩ := h
  by_cases hq : d = '`'
  · rw [if_pos hq] at hc
    rcases List.mem_cons.mp hc with rfl | hc
    · exact Or.inr rfl
    · simp at hc
      subst hc hq
      exact Or.inl hd
  · rw [if_neg hq] at hc
    simp at hc
    subst hc
    exact Or.inl hd


theorem malformedMatch_inner {t : List Char} {a b : Nat} {inner : List Char}
    (h : malformedMatch t = some (a, inner, b)) : ∀ c ∈ inner, c ∈ t ∨ c = '=' := by
  intro c hc
  unfold malformedMatch at h
  split at h
  · split at h
    · simp only [Option.some.injEq, Prod.mk.injEq] at h
      rw [← h.2.1] at hc
      simp at hc
      exact Or.inr hc
    · simp only [Option.some.injEq, Prod.mk.injEq] at h
      rw [← h.2.1] at hc
      exact Or.inl (List.drop_subset _ _ (List.take_subset _ _ hc))
  · cases h

theorem eqStep_no_cr {line nl : List Char} {ch : FixChange} {i : Nat}
    (h : eqStep line i = some (nl, ch)) (hl : '\r' ∉ line) : '\r' ∉ nl := by
  have ht : '\r' ∉ trim line := fun hx => hl (mem_trim hx)
  unfold eqStep at h
  dsimp only at h
  split at h
  · split at h
    case h_1 a lead inner tra heq =>
      split at h
      · cases h
      · split at h
        all_goals split at h
        any_goals cases h
        all_goals
          intro hx
          simp only [List.mem_append] at hx
          rcases hx with (hx | hx) | hx
          · exact absurd hx (by decide)
          · rcases malformedMatch_inner heq _ (mem_trim hx) with hx | hx
            · exact ht hx
            · exact absurd hx (by decide)
          · exact absurd hx (by decide)
    case h_2 heq =>
      split at h
      · simp only [Option.some.injEq, Prod.mk.injEq] at h
        rw [← h.1]
        split <;>
        · intro hx
          simp only [List.mem_append] at hx
          rcases hx with (hx | hx) | hx
          · exact absurd hx (by decide)
          · exact ht ((List.drop_subset _ _) ((List.dropWhile_sublist _).subset (mem_trim hx)))
          · exact absurd hx (by decide)
      · cases h
  · cases h

theorem mem_stripTrailingHashes {c : Char} {tp : List Char}
    (h : c ∈  stripTrailingHashes tp) : c ∈ tp := by
  unfold  stripTrailingHashes at h
  dsimp only at h
  split at h
  · exact List.take_subset _ _ h
  · exact h


theorem hashMatch_sub {line : List Char} {level : Nat} {tp : List Char}
    (h : hashMatch line = some (level, tp)) : ∀ c ∈ tp, c ∈ line := by
  unfold hashMatch at h
  dsimp only at h
  split at h
  · simp only [Option.some.injEq, Prod.mk.injEq] at h
    intro c hc
    rw [← h.2] at hc
    exact List.drop_subset _ _ hc
  · cases h

theorem hashStep_no_cr {line nl : List Char} {mc : Option FixChange} {i : Nat}
    (h : hashStep line i = some (nl, mc)) (hl : '\r' ∉ line) : '\r' ∉ nl := by
  unfold hashStep at h
  split at h
  case h_1 => cases h
  case h_2 level titlePortion heq =>
    dsimp only at h
    split at h
    · split at h
      · simp only [Option.some.injEq, Prod.mk.injEq] at h
        rw [← h.1]
        split <;>
        · intro hx
          simp only [List.mem_append] at hx
          rcases hx with (hx | hx) | hx
          · exact absurd hx (by decide)
          · rcases mem_collapseWsRunsGo _ _ hx with hx | hx
            · exact hl (hashMatch_sub heq _
                ((List.dropWhile_sublist _).subset (mem_stripTrailingHashes (mem_trim hx))))
            · exact absurd hx (by decide)
          · exact absurd hx (by decide)
      · cases h
    · cases h

theorem fenceOpen_no_cr {line : List Char} {lang : List Char}
    (h : fenceOpen line = some (some lang)) : '\r' ∉ lang := by
  unfold fenceOpen at h
  dsimp only at h
  split at h
  · split at h
    · simp only [Option.some.injEq] at h
      split at h
      · cases h
      · simp only [Option.some.injEq] at h
        subst h
        intro hx
        exact absurd (List.mem_takeWhile_imp hx) (by decide)
    · cases h
  · cases h

theorem normalizeBlockIndent_no_cr {block : List (List Char)}
    (hb : ∀ b ∈ block, '\r' ∉ b) :
    ∀ o ∈ (normalizeBlockIndent block).1, '\r' ∉ o := by
  intro o ho
  rw [normalizeBlockIndent] at ho
  simp only [List.mem_map] at ho
  obtain ⟨b, hbm, rfl⟩ := ho
  have hbc := hb b hbm
  intro hx
  apply hbc
  split at hx
  · rcases List.mem_cons.mp hx with h1 | hx
    · exact absurd h1 (by decide)
    · rcases List.mem_cons.mp hx with h1 | hx
      · exact absurd h1 (by decide)
      · rcases List.mem_cons.mp hx with h1 | hx
        · exact absurd h1 (by decide)
        · rcases List.mem_cons.mp hx with h1 | hx
          · exact absurd h1 (by decide)
          · exact (List.tail_sublist _).subset hx
  · exact hx

theorem joinLF_cons_cons (l m : List Char) (ms : List (List Char)) :
    joinLF (l :: m :: ms) = l ++ '\n' :: joinLF (m :: ms) := by
  simp [joinLF, List.intercalate, List.intersperse]

theorem joinLF_no_cr {ls : List (List Char)} (h : ∀ l ∈ ls, '\r' ∉ l) :
    '\r' ∉ joinLF ls := by
  induction ls with
  | nil => simp [joinLF, List.intercalate]
  | cons l rest ih =>
    rcases rest with _ | ⟨m, ms⟩
    · simpa [joinLF, List.intercalate] using h l (by simp)
    · rw [joinLF_cons_cons]
      intro hx
      rcases List.mem_append.mp hx with hx | hx
      · exact h l (by simp) hx
      · rcases List.mem_cons.mp hx with hx | hx
        · exact absurd hx (by decide)
        · exact ih (fun x hxm => h x (List.mem_cons_of_mem _ hxm)) hx

theorem collapseBlank_no_cr :
    ∀ (k : Nat) (ls : List (List Char)), (∀ l ∈ ls, '\r' ∉ l) →
      ∀ o ∈ (collapseBlank k ls).1, '\r' ∉ o := by
  intro k ls
  induction ls generalizing k with
  | nil => intro _ o ho; simp [collapseBlank] at ho
  | cons l rest ih =>
    intro h o ho
    have hrest : ∀ x ∈ rest, '\x0d' ∉ x := fun x hx => h x (List.mem_cons_of_mem _ hx)
    rw [collapseBlank] at ho
    dsimp only at ho
    split at ho
    · rcases hcb : collapseBlank (k + 1) rest with ⟨out, chs⟩
      rw [hcb] at ho
      split at ho
      · rcases List.mem_cons.mp ho with rfl | ho
        · simp
        · exact ih (k + 1) hrest o (by rw [hcb]; exact ho)
      · split at ho
        all_goals exact ih (k + 1) hrest o (by rw [hcb]; exact ho)
    · rcases hcb : collapseBlank 0 rest with ⟨out, chs⟩
      rw [hcb] at ho
      rcases List.mem_cons.mp ho with rfl | ho
      · exact h o (by simp)
      · exact ih 0 hrest o (by rw [hcb]; exact ho)


theorem autoGo_no_cr (style : FixStyle) :
    ∀ (fuel i : Nat) (lines : List (List Char)),
      (∀ l ∈ lines, '\r' ∉ l) →
      ∀ o ∈ (autoGo style fuel i lines).1, '\r' ∉ o := by
  intro fuel
  induction fuel with
  | zero =>
    intro i lines h o ho
    cases lines with
    | nil => simp [autoGo] at ho
    | cons l ls =>
      rw [autoGo] at ho
      exact h o ho
  | succ fuel ih =>
    intro i lines h o ho
    cases lines with
    | nil => simp [autoGo] at ho
    | cons line rest =>
      have hline : '\r' ∉ line := h line (by simp)
      have hrest : ∀ l ∈ rest, '\r' ∉ l := fun l hl => h l (List.mem_cons_of_mem _ hl)
      rw [autoGo] at ho
      split at ho
      case h_1 nl ch heq =>
        rcases hgo : autoGo style fuel (i + 1) rest with ⟨out, chs⟩
        rw [hgo] at ho
        rcases List.mem_cons.mp ho with rfl | ho
        · exact eqStep_no_cr heq hline
        · exact ih (i + 1) rest hrest o (by rw [hgo]; exact ho)
      case h_2 heq1 =>
        split at ho
        case h_1 mlang heq2 =>
          dsimp only at ho
          have hblock : ∀ b ∈ rest.takeWhile (fun l => ¬ fenceCloseTest l), '\r' ∉ b :=
            fun b hb => hrest b ((List.takeWhile_sublist _).subset hb)
          have hafter : ∀ l ∈ (if (rest.drop
                ((rest.takeWhile (fun l => ¬ fenceCloseTest l)).length) ≠ [])
              then (rest.drop ((rest.takeWhile (fun l => ¬ fenceCloseTest l)).length)).drop 1
              else rest.drop ((rest.takeWhile (fun l => ¬ fenceCloseTest l)).length)),
              '\r' ∉ l := by
            intro l hl
            split at hl
            · exact hrest l (List.drop_subset _ _ (List.drop_subset _ _ hl))
            · exact hrest l (List.drop_subset _ _ hl)
          rcases hgo : autoGo style fuel
              (i + 1 + (rest.takeWhile (fun l => ¬ fenceCloseTest l)).length +
                (if rest.drop ((rest.takeWhile (fun l => ¬ fenceCloseTest l)).length) ≠ []
                 then 1 else 0))
              (if rest.drop ((rest.takeWhile (fun l => ¬ fenceCloseTest l)).length) ≠ []
               then (rest.drop ((rest.takeWhile (fun l => ¬ fenceCloseTest l)).length)).drop 1
               else rest.drop ((rest.takeWhile (fun l => ¬ fenceCloseTest l)).length))
            with ⟨out, chs⟩
          have hout : ∀ x ∈ out, '\r' ∉ x := by
            intro x hx
            exact ih _ _ hafter x (by rw [hgo]; exact hx)
          rw [hgo] at ho
          split at ho
          · exact hout o ho
          · split at ho
            · rcases List.mem_cons.mp ho with rfl | ho
              · intro hx
                rcases List.mem_cons.mp hx with h1 | hx
                · exact absurd h1 (by decide)
                · rcases List.mem_append.mp hx with hx | hx
                  · rcases mem_escapeBackticks hx with hx | hx
                    · have hhd : '\r' ∈ (rest.takeWhile (fun l => ¬ fenceCloseTest l)).headD [] :=
                        mem_trim hx
                      rcases hh : (rest.takeWhile (fun l => ¬ fenceCloseTest l)) with _ | ⟨b, bs⟩
                      · rw [hh] at hhd; simp at hhd
                      · rw [hh] at hhd
                        exact hblock b (by rw [hh]; simp) hhd
                    · exact absurd hx (by decide)
                  · exact absurd hx (by decide)
              · exact hout o ho
            · split at ho
              · -- fenced style
                rcases List.mem_cons.mp ho with rfl | ho
                · intro hx
                  rcases List.mem_append.mp hx with hx | hx
                  · exact absurd hx (by decide)
                  · rcases hlang : mlang with _ | lang
                    · rw [hlang] at hx; simp at hx
                    · rw [hlang] at hx
                      simp only [Option.getD_some] at hx
                      exact fenceOpen_no_cr (hlang ▸ heq2) hx
                · rcases List.mem_append.mp ho with ho | ho
                  · exact normalizeBlockIndent_no_cr hblock o ho
                  · rcases List.mem_cons.mp ho with rfl | ho
                    · decide
                    · exact hout o ho
              · -- indented style
                rcases List.mem_append.mp ho with ho | ho
                · simp only [List.mem_map] at ho
                  obtain ⟨b, hbm, rfl⟩ := ho
                  intro hx
                  rcases List.mem_append.mp hx with hx | hx
                  · exact absurd hx (by decide)
                  · exact normalizeBlockIndent_no_cr hblock b hbm
                      ((List.dropWhile_sublist _).subset hx)
                · exact hout o ho
        case h_2 heq2 =>
          split at ho
          case h_1 nl mc heq3 =>
            rcases hgo : autoGo style fuel (i + 1) rest with ⟨out, chs⟩
            rw [hgo] at ho
            rcases List.mem_cons.mp ho with rfl | ho
            · exact hashStep_no_cr heq3 hline
            · exact ih (i + 1) rest hrest o (by rw [hgo]; exact ho)
          case h_2 heq3 =>
            rcases hgo : autoGo style fuel (i + 1) rest with ⟨out, chs⟩
            rw [hgo] at ho
            rcases List.mem_cons.mp ho with rfl | ho
            · exact hline
            · exact ih (i + 1) rest hrest o (by rw [hgo]; exact ho)


/-- C10: the text returned by `autoFixReadme` uses LF as its only line
separator: on an input whose carriage returns all belong to CRLF pairs the
result contains no `'\r'` at all, and the concrete input `"a\r\nb"` shows
the rewrite happening with an empty change list (the output differs from
the input while nothing is logged). -/
theorem c10_lf_only_output (raw : List Char) (style : FixStyle) (h : crOk raw = true) :
    '\r' ∉ (autoFixReadme raw style).updated ∧
    (autoFixReadme "a\r\nb".toList .indented).updated = "a\nb".toList ∧
    (autoFixReadme "a\r\nb".toList .indented).changes = [] ∧
    "a\nb".toList ≠ "a\r\nb".toList := by
  refine ⟨?_, by decide, by decide, by decide⟩
  have hlines := splitCRLF_no_cr raw h
  rcases hgo : autoGo style (splitCRLF raw).length 0 (splitCRLF raw) with ⟨out, chs1⟩
  rcases hcb : collapseBlank 0 out with ⟨norm, chs2⟩
  have hout : ∀ o ∈ out, '\r' ∉ o :=
    fun o ho => autoGo_no_cr style _ 0 _ hlines o (by rw [hgo]; exact ho)
  have hnorm : ∀ l ∈ norm, '\r' ∉ l :=
    fun l hl => collapseBlank_no_cr 0 out hout l (by rw [hcb]; exact hl)
  have hupd : (autoFixReadme raw style).updated = joinLF norm := by
    rw [autoFixReadme]
    dsimp only
    rw [hgo]
    dsimp only
    rw [hcb]
  rw [hupd]
  exact joinLF_no_cr hnorm

/-- Witness for C10 at the two-line CRLF input `"x\r\ny"`. -/
theorem c10_lf_only_output_witness :
    crOk "x\r\ny".toList = true ∧ '\r' ∉ (autoFixReadme "x\r\ny".toList .indented).updated :=
  ⟨by decide, (c10_lf_only_output "x\r\ny".toList .indented (by decide)).1⟩

end AutoFix

namespace AutoFix

theorem head_dropWhile_not (p : Char → Bool) (l : List Char) {a : Char}
    (h : (l.dropWhile p).head? = some a) : p a = false := by
  induction l with
  | nil => simp at h
  | cons c t ih =>
    by_cases hp : p c = true
    · rw [List.dropWhile_cons, if_pos hp] at h
      exact ih h
    · rw [List.dropWhile_cons, if_neg hp] at h
      simp at h
      rw [← h]
      exact Bool.eq_false_iff.mpr hp

theorem ltrim_head_not {s : List Char} {c : Char} (h : (ltrim s).head? = some c) :
    isJsWs c = false :=
  head_dropWhile_not _ _ h

theorem rtrim_last_not {s : List Char} {c : Char} (h : (rtrim s).getLast? = some c) :
    isJsWs c = false := by
  rw [rtrim, ← List.head?_reverse, List.reverse_reverse] at h
  exact head_dropWhile_not _ _ h

theorem ltrim_eq_self {s : List Char} (h : ∀ c, s.head? = some c → isJsWs c = false) :
    ltrim s = s := by
  cases s with
  | nil => rfl
  | cons c t =>
    rw [ltrim, List.dropWhile_cons, if_neg]
    simp [h c rfl]

theorem rtrim_eq_self {s : List Char} (h : ∀ c, s.getLast? = some c → isJsWs c = false) :
    rtrim s = s := by
  rw [rtrim, List.dropWhile_eq_self_iff.mpr, List.reverse_reverse]
  intro hl hp
  have h0 : s.reverse.head? = some (s.reverse.get ⟨0, hl⟩) := by
    rw [List.head?_eq_getElem?]
    simp [List.getElem?_eq_getElem hl]
  rw [List.head?_reverse] at h0
  rw [h _ h0] at hp
  cases hp

theorem trim_eq_self {s : List Char}
    (hh : ∀ c, s.head? = some c → isJsWs c = false)
    (hl : ∀ c, s.getLast? = some c → isJsWs c = false) :
    trim s = s := by
  rw [trim, ltrim_eq_self hh, rtrim_eq_self hl]

theorem rtrim_prefix (s : List Char) : rtrim s <+: s := by
  rw [rtrim]
  have h2 := List.reverse_prefix.mpr (@List.dropWhile_suffix _ s.reverse isJsWs)
  rwa [List.reverse_reverse] at h2

theorem trim_head_not {s : List Char} {c : Char} (h : (trim s).head? = some c) :
    isJsWs c = false := by
  rw [trim] at h
  obtain ⟨t, ht⟩ := rtrim_prefix (ltrim s)
  have : (ltrim s).head? = some c := by
    rw [← ht, List.head?_append, h]
    rfl
  exact ltrim_head_not this

theorem trim_last_not {s : List Char} {c : Char} (h : (trim s).getLast? = some c) :
    isJsWs c = false :=
  rtrim_last_not h

theorem trim_trim (s : List Char) : trim (trim s) = trim s :=
  trim_eq_self (fun _ h => trim_head_not h) (fun _ h => trim_last_not h)


theorem splitCRLF_ne_nil (s : List Char) : splitCRLF s ≠ [] := by
  induction s using splitCRLF.induct with
  | case1 => simp [splitCRLF]
  | case2 rest ih => simp [splitCRLF]
  | case3 rest ih => simp [splitCRLF]
  | case4 c rest h1 h2 heq ih => exact absurd heq ih
  | case5 c rest h1 h2 l' ls' heq ih =>
    rw [splitCRLF]
    case x_1 => exact h1
    case x_2 => exact h2
    rw [heq]
    simp

theorem splitCRLF_no_nl (s : List Char) : ∀ l ∈ splitCRLF s, '\n' ∉ l := by
  induction s using splitCRLF.induct with
  | case1 =>
    intro l hl
    simp [splitCRLF] at hl
    simp [hl]
  | case2 rest ih =>
    intro l hl
    simp [splitCRLF] at hl
    rcases hl with rfl | hl
    · simp
    · exact ih l hl
  | case3 rest ih =>
    intro l hl
    simp [splitCRLF] at hl
    rcases hl with rfl | hl
    · simp
    · exact ih l hl
  | case4 c rest h1 h2 heq ih =>
    intro l hl
    rw [splitCRLF] at hl
    case x_1 => exact h1
    case x_2 => exact h2
    rw [heq] at hl
    simp at hl
    rw [hl]
    simp only [List.mem_singleton]
    exact fun hx => h2 hx.symm
  | case5 c rest h1 h2 l' ls' heq ih =>
    intro l hl
    rw [splitCRLF] at hl
    case x_1 => exact h1
    case x_2 => exact h2
    rw [heq] at hl
    simp at hl
    rcases hl with rfl | hl
    · intro hmem
      rcases List.mem_cons.mp hmem with hmem | hmem
      · exact h2 hmem.symm
      · exact ih l' (by rw [heq]; simp) hmem
    · exact ih l (by rw [heq]; exact List.mem_cons_of_mem _ hl)

theorem splitCRLF_mem_sub (s : List Char) :
    ∀ l ∈ splitCRLF s, ∀ c ∈ l, c ∈ s := by
  induction s using splitCRLF.induct with
  | case1 =>
    intro l hl
    simp [splitCRLF] at hl
    simp [hl]
  | case2 rest ih =>
    intro l hl
    simp [splitCRLF] at hl
    rcases hl with rfl | hl
    · simp
    · exact fun c hc => by
        simp only [List.mem_cons]
        exact Or.inr (Or.inr (ih l hl c hc))
  | case3 rest ih =>
    intro l hl
    simp [splitCRLF] at hl
    rcases hl with rfl | hl
    · simp
    · exact fun c hc => List.mem_cons_of_mem _ (ih l hl c hc)
  | case4 c rest h1 h2 heq ih =>
    intro l hl
    rw [splitCRLF] at hl
    case x_1 => exact h1
    case x_2 => exact h2
    rw [heq] at hl
    simp at hl
    rw [hl]
    intro x hx
    simp at hx
    simp [hx]
  | case5 c rest h1 h2 l' ls' heq ih =>
    intro l hl
    rw [splitCRLF] at hl
    case x_1 => exact h1
    case x_2 => exact h2
    rw [heq] at hl
    simp at hl
    rcases hl with rfl | hl
    · intro x hx
      rcases List.mem_cons.mp hx with rfl | hx
      · simp
      · exact List.mem_cons_of_mem _ (ih l' (by rw [heq]; simp) x hx)
    · intro x hx
      exact List.mem_cons_of_mem _
        (ih l (by rw [heq]; exact List.mem_cons_of_mem _ hl) x hx)

theorem splitCRLF_single (s : List Char) (hn : '\n' ∉ s) (hr : '\r' ∉ s) :
    splitCRLF s = [s] := by
  induction s using splitCRLF.induct with
  | case1 => simp [splitCRLF]
  | case2 rest ih => exact absurd (by simp) hr
  | case3 rest ih => exact absurd (by simp) hn
  | case4 c rest h1 h2 heq ih =>
    have := splitCRLF_ne_nil rest
    exact absurd heq this
  | case5 c rest h1 h2 l' ls' heq ih =>
    have hn' : '\n' ∉ rest := fun hx => hn (List.mem_cons_of_mem _ hx)
    have hr' : '\r' ∉ rest := fun hx => hr (List.mem_cons_of_mem _ hx)
    have hih := ih hn' hr'
    rw [splitCRLF]
    case x_1 => exact h1
    case x_2 => exact h2
    rw [heq]
    rw [hih] at heq
    injection heq with e1 e2
    rw [e1, e2]

theorem splitCRLF_append_nl (l t : List Char) (hn : '\n' ∉ l) (hr : '\r' ∉ l) :
    splitCRLF (l ++ '\n' :: t) = l :: splitCRLF t := by
  induction l with
  | nil => simp [splitCRLF]
  | cons c l' ih =>
    have hn' : '\n' ∉ l' := fun hx => hn (List.mem_cons_of_mem _ hx)
    have hr' : '\r' ∉ l' := fun hx => hr (List.mem_cons_of_mem _ hx)
    have hc_n : c ≠ '\n' := fun hx => hn (by simp [hx])
    have hc_r : c ≠ '\r' := fun hx => hr (by simp [hx])
    have hih := ih hn' hr'
    show splitCRLF (c :: (l' ++ '\n' :: t)) = (c :: l') :: splitCRLF t
    rw [splitCRLF]
    case x_1 => exact fun r1 hcx _ => hc_r hcx
    case x_2 => exact fun hcx => hc_n hcx
    rw [hih]

theorem splitCRLF_joinLF (ls : List (List Char)) (hne : ls ≠ [])
    (h : ∀ l ∈ ls, '\n' ∉ l ∧ '\r' ∉ l) :
    splitCRLF (joinLF ls) = ls := by
  induction ls with
  | nil => exact absurd rfl hne
  | cons l rest ih =>
    rcases rest with _ | ⟨m, ms⟩
    · have hl := h l (by simp)
      have : joinLF [l] = l := by simp [joinLF, List.intercalate]
      rw [this]
      exact splitCRLF_single l hl.1 hl.2
    · rw [joinLF_cons_cons]
      have hl := h l (by simp)
      rw [splitCRLF_append_nl l _ hl.1 hl.2]
      rw [ih (by simp) (fun x hx => h x (List.mem_cons_of_mem _ hx))]


theorem eqStep_fst (line : List Char) (i : Nat) :
    (eqStep line i).map Prod.fst = (eqStep line 0).map Prod.fst := by
  unfold eqStep
  dsimp only
  split
  · split
    · split
      · rfl
      · split <;> split <;> rfl
    · split <;> rfl
  · rfl

theorem hashStep_fst (line : List Char) (i : Nat) :
    (hashStep line i).map Prod.fst = (hashStep line 0).map Prod.fst := by
  unfold hashStep
  split
  · rfl
  · dsimp only
    split
    · split
      · split <;> rfl
      · rfl
    · rfl

theorem autoGo_map (style : FixStyle) :
    ∀ (fuel i : Nat) (lines : List (List Char)), lines.length ≤ fuel →
      (∀ l ∈ lines, fenceOpen l = none) →
      (autoGo style fuel i lines).1 = lines.map fixLineText := by
  intro fuel
  induction fuel with
  | zero =>
    intro i lines hle hf
    cases lines with
    | nil => simp [autoGo]
    | cons l ls => simp at hle
  | succ fuel ih =>
    intro i lines hle hf
    cases lines with
    | nil => simp [autoGo]
    | cons line rest =>
      have hle' : rest.length ≤ fuel := by simp at hle; omega
      have hf' : ∀ l ∈ rest, fenceOpen l = none :=
        fun l hl => hf l (List.mem_cons_of_mem _ hl)
      have hfl : fenceOpen line = none := hf line (by simp)
      rw [autoGo]
      split
      case h_1 nl ch heq =>
        rcases hgo : autoGo style fuel (i + 1) rest with ⟨out, chs⟩
        have hout : out = rest.map fixLineText := by
          have := ih (i + 1) rest hle' hf'
          rw [hgo] at this
          exact this
        rw [hout]
        have htext : fixLineText line = nl := by
          have h0 := eqStep_fst line i
          rw [heq] at h0
          rw [fixLineText]
          rcases h00 : eqStep line 0 with _ | ⟨nl0, ch0⟩
          · rw [h00] at h0; cases h0
          · rw [h00] at h0
            simp at h0
            rw [h0]
        simp [htext]
      case h_2 heq1 =>
        split
        case h_1 mlang heq2 => rw [hfl] at heq2; cases heq2
        case h_2 heq2 =>
          split
          case h_1 nl mc heq3 =>
            rcases hgo : autoGo style fuel (i + 1) rest with ⟨out, chs⟩
            have hout : out = rest.map fixLineText := by
              have := ih (i + 1) rest hle' hf'
              rw [hgo] at this
              exact this
            rw [hout]
            have htext : fixLineText line = nl := by
              have h0 := hashStep_fst line i
              rw [heq3] at h0
              have he0 : eqStep line 0 = none := by
                have he := eqStep_fst line i
                rw [heq1] at he
                rcases h00 : eqStep line 0 with _ | p
                · rfl
                · rw [h00] at he; cases he
              rw [fixLineText, he0]
              rcases h00 : hashStep line 0 with _ | ⟨nl0, mc0⟩
              · rw [h00] at h0; cases h0
              · rw [h00] at h0
                simp at h0
                rw [h0]
            simp [htext]
          case h_2 heq3 =>
            rcases hgo : autoGo style fuel (i + 1) rest with ⟨out, chs⟩
            have hout : out = rest.map fixLineText := by
              have := ih (i + 1) rest hle' hf'
              rw [hgo] at this
              exact this
            rw [hout]
            have he0 : eqStep line 0 = none := by
              have he := eqStep_fst line i
              rw [heq1] at he
              rcases h00 : eqStep line 0 with _ | p
              · rfl
              · rw [h00] at he; cases he
            have hh0 : hashStep line 0 = none := by
              have hh := hashStep_fst line i
              rw [heq3] at hh
              rcases h00 : hashStep line 0 with _ | p
              · rfl
              · rw [h00] at hh; cases hh
            simp [fixLineText, he0, hh0]


theorem collapseBlank_out_mem :
    ∀ (k : Nat) (ls : List (List Char)) (o : List Char),
      o ∈ (collapseBlank k ls).1 → o = [] ∨ o ∈ ls := by
  intro k ls
  induction ls generalizing k with
  | nil => intro o ho; simp [collapseBlank] at ho
  | cons l rest ih =>
    intro o ho
    rw [collapseBlank] at ho
    dsimp only at ho
    split at ho
    · rcases hcb : collapseBlank (k + 1) rest with ⟨out, chs⟩
      rw [hcb] at ho
      split at ho
      · rcases List.mem_cons.mp ho with rfl | ho
        · exact Or.inl rfl
        · rcases ih (k + 1) o (by rw [hcb]; exact ho) with h | h
          · exact Or.inl h
          · exact Or.inr (List.mem_cons_of_mem _ h)
      · split at ho
        all_goals
          rcases ih (k + 1) o (by rw [hcb]; exact ho) with h | h
          · exact Or.inl h
          · exact Or.inr (List.mem_cons_of_mem _ h)
    · rcases hcb : collapseBlank 0 rest with ⟨out, chs⟩
      rw [hcb] at ho
      rcases List.mem_cons.mp ho with rfl | ho
      · exact Or.inr (List.mem_cons_self _ _)
      · rcases ih 0 o (by rw [hcb]; exact ho) with h | h
        · exact Or.inl h
        · exact Or.inr (List.mem_cons_of_mem _ h)

theorem collapseBlank_idem :
    ∀ (ls : List (List Char)) (k j : Nat), j ≤ k →
      (collapseBlank j ((collapseBlank k ls).1)).1 = (collapseBlank k ls).1 := by
  intro ls
  induction ls with
  | nil => intro k j hj; simp [collapseBlank]
  | cons l rest ih =>
    intro k j hj
    rw [collapseBlank]
    dsimp only
    split
    case isTrue hblank =>
      rcases hcb : collapseBlank (k + 1) rest with ⟨out, chs⟩
      dsimp only
      have hout : out = (collapseBlank (k + 1) rest).1 := by rw [hcb]
      split
      case isTrue hk2 =>
        dsimp only
        rw [collapseBlank]
        dsimp only
        rw [if_pos (by decide)]
        rcases hcb2 : collapseBlank (j + 1) out with ⟨out2, chs2⟩
        dsimp only
        have h2 : out2 = out := by
          have := ih (k + 1) (j + 1) (by omega)
          rw [hcb] at this
          dsimp only at this
          rw [hcb2] at this
          exact this
        rw [if_pos (by omega), h2]
      case isFalse hk2 =>
        split
        all_goals
          have := ih (k + 1) j (by omega)
          rw [hcb] at this
          dsimp only at this
          exact this
    case isFalse hblank =>
      rcases hcb : collapseBlank 0 rest with ⟨out, chs⟩
      dsimp only
      rw [collapseBlank]
      dsimp only
      rw [if_neg hblank]
      rcases hcb2 : collapseBlank 0 out with ⟨out2, chs2⟩
      dsimp only
      have h2 : out2 = out := by
        have := ih 0 0 (le_refl 0)
        rw [hcb] at this
        dsimp only at this
        rw [hcb2] at this
        exact this
      rw [h2]

theorem collapseBlank_zero_ne_nil (l : List Char) (ls : List (List Char)) :
    (collapseBlank 0 (l :: ls)).1 ≠ [] := by
  rw [collapseBlank]
  dsimp only
  split
  · rcases hcb : collapseBlank 1 ls with ⟨out, chs⟩
    simp
  · rcases hcb : collapseBlank 0 ls with ⟨out, chs⟩
    simp


theorem rtrim_idem (s : List Char) : rtrim (rtrim s) = rtrim s := by
  simp [rtrim, List.reverse_reverse, List.dropWhile_idempotent]

theorem rtrim_trim (s : List Char) : rtrim (trim s) = trim s := by
  rw [trim, rtrim_idem]

theorem trim_cons_ws {c : Char} (X : List Char) (hc : isJsWs c = true) :
    trim (c :: X) = trim X := by
  rw [trim, trim, ltrim, List.dropWhile_cons, if_pos hc]
  rfl

theorem rtrim_concat_ws {c : Char} (X : List Char) (hc : isJsWs c = true) :
    rtrim (X ++ [c]) = rtrim X := by
  rw [rtrim, rtrim, List.reverse_append]
  simp only [List.reverse_cons, List.reverse_nil, List.nil_append, List.singleton_append]
  rw [List.dropWhile_cons, if_pos hc]

theorem trim_pad (I : List Char) (hI : trim I = I) :
    trim (' ' :: (I ++ [' '])) = I := by
  rw [trim_cons_ws _ (by decide)]
  rcases I with _ | ⟨c, t⟩
  · decide
  · have hhead : isJsWs c = false := by
      have h1 : (trim (c :: t)).head? = some c := by rw [hI]; rfl
      exact trim_head_not h1
    rw [trim, ltrim_eq_self, rtrim_concat_ws _ (by decide)]
    · conv_rhs => rw [← hI]
      rw [← rtrim_trim (c :: t), hI]
    · intro d hd
      simp only [List.cons_append, List.head?_cons, Option.some.injEq] at hd
      rw [← hd]
      exact hhead

theorem getLast?_cons_of {α : Type} {y c : α} {X : List α} (h : X.getLast? = some c) :
    (y :: X).getLast? = some c := by
  cases X with
  | nil => simp at h
  | cons z zs => rw [List.getLast?_cons_cons]; exact h

theorem collapseWsRunsGo_last {c : Char} (hc : isJsWs c = false) :
    ∀ (s : List Char) (b : Bool), s.getLast? = some c →
      (collapseWsRunsGo b s).getLast? = some c := by
  intro s
  induction s with
  | nil => intro b h; simp at h
  | cons d t ih =>
    intro b h
    cases t with
    | nil =>
      simp at h
      subst h
      rw [collapseWsRunsGo, if_neg (by simp [hc])]
      simp [collapseWsRunsGo]
    | cons e t' =>
      rw [List.getLast?_cons_cons] at h
      have hih : ∀ b, (collapseWsRunsGo b (e :: t')).getLast? = some c := fun b => ih b h
      rw [collapseWsRunsGo]
      split
      · split
        · exact hih true
        · split
          · split
            · exact getLast?_cons_of (hih true)
            · exact getLast?_cons_of (hih true)
          · exact getLast?_cons_of (hih true)
      · exact getLast?_cons_of (hih false)

theorem collapseWsRuns_trimmed (s : List Char) (hs : trim s = s) :
    trim (collapseWsRuns s) = collapseWsRuns s := by
  rcases s with _ | ⟨c, t⟩
  · rfl
  · have hhead : isJsWs c = false :=
      trim_head_not (by rw [hs]; rfl)
    obtain ⟨d, hd⟩ : ∃ d, (c :: t).getLast? = some d := by
      cases t with
      | nil => exact ⟨c, rfl⟩
      | cons e t' =>
        rw [List.getLast?_cons_cons]
        exact ⟨(e :: t').getLast (by simp), List.getLast?_eq_getLast _ (by simp)⟩
    have hdws : isJsWs d = false :=
      trim_last_not (by rw [hs]; exact hd)
    rw [collapseWsRuns, collapseWsRunsGo, if_neg (by simp [hhead])]
    apply trim_eq_self
    · intro x hx
      simp only [List.head?_cons, Option.some.injEq] at hx
      rw [← hx]
      exact hhead
    · intro x hx
      cases t with
      | nil =>
        simp [collapseWsRunsGo] at hx
        simp at hd
        rw [← hx]
        exact hhead
      | cons e t' =>
        rw [List.getLast?_cons_cons] at hd
        have := collapseWsRunsGo_last hdws (e :: t') false hd
        rw [getLast?_cons_of this] at hx
        injection hx with hx
        rw [← hx]
        exact hdws


theorem malformedMatch_eqform2 (I : List Char) (hn : '\n' ∉ I) (hr : '\r' ∉ I) :
    malformedMatch ("== ".toList ++ I ++ " ==".toList) = some (2, ' ' :: (I ++ [' ']), 2) := by
  have hshape : "== ".toList ++ I ++ " ==".toList =
      '=' :: '=' :: ' ' :: (I ++ [' ', '=', '=']) := by simp
  have hlast : ("== ".toList ++ I ++ " ==".toList).getLast? = some '=' := by
    have : "== ".toList ++ I ++ " ==".toList = ("== ".toList ++ I ++ [' ', '=']) ++ ['='] := by
      simp
    rw [this, List.getLast?_concat]
  have hlen : ("== ".toList ++ I ++ " ==".toList).length = I.length + 6 := by
    simp only [List.length_append, List.length_cons, List.length_nil, String.toList]
    omega
  have hrm : '\r' ∉ "== ".toList ++ I ++ " ==".toList := by
    intro hx
    simp only [List.mem_append] at hx
    rcases hx with (hx | hx) | hx
    · exact absurd hx (by decide)
    · exact hr hx
    · exact absurd hx (by decide)
  have hnm : '\n' ∉ "== ".toList ++ I ++ " ==".toList := by
    intro hx
    simp only [List.mem_append] at hx
    rcases hx with (hx | hx) | hx
    · exact absurd hx (by decide)
    · exact hn hx
    · exact absurd hx (by decide)
  rw [malformedMatch, if_pos ⟨by rw [hshape]; rfl, hlast, by omega, hrm, hnm⟩]
  rw [if_neg]
  · have hlead : eqRunLead ("== ".toList ++ I ++ " ==".toList) = 2 := by
      rw [eqRunLead, hshape]
      rw [List.takeWhile_cons, if_pos (by decide), List.takeWhile_cons, if_pos (by decide),
          List.takeWhile_cons, if_neg (by decide)]
      rfl
    have htra : eqRunTrail ("== ".toList ++ I ++ " ==".toList) = 2 := by
      rw [eqRunTrail]
      have hrev : ("== ".toList ++ I ++ " ==".toList).reverse =
          '=' :: '=' :: ' ' :: (I.reverse ++ [' ', '=', '=']) := by
        simp
      rw [hrev]
      rw [List.takeWhile_cons, if_pos (by decide), List.takeWhile_cons, if_pos (by decide),
          List.takeWhile_cons, if_neg (by decide)]
      rfl
    have hinner : (("== ".toList ++ I ++ " ==".toList).drop 2).take
        (("== ".toList ++ I ++ " ==".toList).length - 2 - 2) = ' ' :: (I ++ [' ']) := by
      rw [hshape]
      have hL : ('=' :: '=' :: ' ' :: (I ++ [' ', '=', '='])).length - 2 - 2 = I.length + 2 := by
        simp only [List.length_append, List.length_cons, List.length_nil]
        omega
      rw [hL]
      simp only [List.drop_succ_cons, List.drop_zero]
      rw [show I.length + 2 = (I.length + 1) + 1 by omega, List.take_succ_cons]
      congr 1
      rw [List.take_append 1]
      rfl
    rw [hlead, htra, hinner]
  · rw [hshape]
    simp

theorem malformedMatch_eqform1 (I : List Char) (hn : '\n' ∉ I) (hr : '\r' ∉ I) :
    malformedMatch ("= ".toList ++ I ++ " =".toList) = some (1, ' ' :: (I ++ [' ']), 1) := by
  have hshape : "= ".toList ++ I ++ " =".toList =
      '=' :: ' ' :: (I ++ [' ', '=']) := by simp
  have hlast : ("= ".toList ++ I ++ " =".toList).getLast? = some '=' := by
    have : "= ".toList ++ I ++ " =".toList = ("= ".toList ++ I ++ [' ']) ++ ['='] := by
      simp
    rw [this, List.getLast?_concat]
  have hlen : ("= ".toList ++ I ++ " =".toList).length = I.length + 4 := by
    simp only [List.length_append, List.length_cons, List.length_nil, String.toList]
    omega
  have hrm : '\r' ∉ "= ".toList ++ I ++ " =".toList := by
    intro hx
    simp only [List.mem_append] at hx
    rcases hx with (hx | hx) | hx
    · exact absurd hx (by decide)
    · exact hr hx
    · exact absurd hx (by decide)
  have hnm : '\n' ∉ "= ".toList ++ I ++ " =".toList := by
    intro hx
    simp only [List.mem_append] at hx
    rcases hx with (hx | hx) | hx
    · exact absurd hx (by decide)
    · exact hn hx
    · exact absurd hx (by decide)
  rw [malformedMatch, if_pos ⟨by rw [hshape]; rfl, hlast, by omega, hrm, hnm⟩]
  rw [if_neg]
  · have hlead : eqRunLead ("= ".toList ++ I ++ " =".toList) = 1 := by
      rw [eqRunLead, hshape]
      rw [List.takeWhile_cons, if_pos (by decide), List.takeWhile_cons, if_neg (by decide)]
      rfl
    have htra : eqRunTrail ("= ".toList ++ I ++ " =".toList) = 1 := by
      rw [eqRunTrail]
      have hrev : ("= ".toList ++ I ++ " =".toList).reverse =
          '=' :: ' ' :: (I.reverse ++ [' ', '=']) := by
        simp
      rw [hrev]
      rw [List.takeWhile_cons, if_pos (by decide), List.takeWhile_cons, if_neg (by decide)]
      rfl
    have hinner : (("= ".toList ++ I ++ " =".toList).drop 1).take
        (("= ".toList ++ I ++ " =".toList).length - 1 - 1) = ' ' :: (I ++ [' ']) := by
      rw [hshape]
      have hL : ('=' :: ' ' :: (I ++ [' ', '='])).length - 1 - 1 = I.length + 2 := by
        simp only [List.length_append, List.length_cons, List.length_nil]
        omega
      rw [hL]
      simp only [List.drop_succ_cons, List.drop_zero]
      rw [show I.length + 2 = (I.length + 1) + 1 by omega, List.take_succ_cons]
      congr 1
      rw [List.take_append 1]
      rfl
    rw [hlead, htra, hinner]
  · rw [hshape]
    simp


theorem trim_eqform2 (I : List Char) (hI : trim I = I) :
    trim ("== ".toList ++ I ++ " ==".toList) = "== ".toList ++ I ++ " ==".toList := by
  apply trim_eq_self
  · intro c hc
    have : ("== ".toList ++ I ++ " ==".toList).head? = some '=' := by
      have hshape : "== ".toList ++ I ++ " ==".toList =
          '=' :: '=' :: ' ' :: (I ++ [' ', '=', '=']) := by simp
      rw [hshape]
      rfl
    rw [this] at hc
    injection hc with hc
    rw [← hc]
    decide
  · intro c hc
    have : ("== ".toList ++ I ++ " ==".toList).getLast? = some '=' := by
      have : "== ".toList ++ I ++ " ==".toList = ("== ".toList ++ I ++ [' ', '=']) ++ ['='] := by
        simp
      rw [this, List.getLast?_concat]
    rw [this] at hc
    injection hc with hc
    rw [← hc]
    decide

theorem trim_eqform1 (I : List Char) (hI : trim I = I) :
    trim ("= ".toList ++ I ++ " =".toList) = "= ".toList ++ I ++ " =".toList := by
  apply trim_eq_self
  · intro c hc
    have : ("= ".toList ++ I ++ " =".toList).head? = some '=' := by
      have hshape : "= ".toList ++ I ++ " =".toList =
          '=' :: ' ' :: (I ++ [' ', '=']) := by simp
      rw [hshape]
      rfl
    rw [this] at hc
    injection hc with hc
    rw [← hc]
    decide
  · intro c hc
    have : ("= ".toList ++ I ++ " =".toList).getLast? = some '=' := by
      have : "= ".toList ++ I ++ " =".toList = ("= ".toList ++ I ++ [' ']) ++ ['='] := by
        simp
      rw [this, List.getLast?_concat]
    rw [this] at hc
    injection hc with hc
    rw [← hc]
    decide

theorem eqStep_eqform2 (I : List Char) (hI : trim I = I) (hn : '\n' ∉ I) (hr : '\r' ∉ I)
    (i : Nat) : eqStep ("== ".toList ++ I ++ " ==".toList) i = none := by
  have hpad : trim (I ++ [' ']) = I := by
    have := trim_pad I hI
    rwa [trim_cons_ws _ (by decide)] at this
  rw [eqStep]
  dsimp only
  rw [trim_eqform2 I hI]
  rw [if_pos (by simp)]
  rw [malformedMatch_eqform2 I hn hr]
  dsimp only
  rw [if_neg (show ¬((2 : Nat) = 3 ∧ (2 : Nat) = 3) by decide)]
  rw [if_pos (show (2 : Nat) ≤ 2 ∨ (2 : Nat) ≤ 2 by decide)]
  rw [trim_cons_ws _ (by decide), hpad]
  rw [if_neg (show ¬("== ".toList ++ I ++ " ==".toList ≠ "== ".toList ++ I ++ " ==".toList)
    from fun h => h rfl)]

theorem eqStep_eqform1 (I : List Char) (hI : trim I = I) (hn : '\n' ∉ I) (hr : '\r' ∉ I)
    (i : Nat) : eqStep ("= ".toList ++ I ++ " =".toList) i = none := by
  have hpad : trim (I ++ [' ']) = I := by
    have := trim_pad I hI
    rwa [trim_cons_ws _ (by decide)] at this
  rw [eqStep]
  dsimp only
  rw [trim_eqform1 I hI]
  rw [if_pos (by simp)]
  rw [malformedMatch_eqform1 I hn hr]
  dsimp only
  rw [if_neg (show ¬((1 : Nat) = 3 ∧ (1 : Nat) = 3) by decide)]
  rw [if_neg (show ¬((2 : Nat) ≤ 1 ∨ (2 : Nat) ≤ 1) by decide)]
  rw [trim_cons_ws _ (by decide), hpad]
  rw [if_neg (show ¬("= ".toList ++ I ++ " =".toList ≠ "= ".toList ++ I ++ " =".toList)
    from fun h => h rfl)]

theorem hashStep_eqhead (t : List Char) (i : Nat) : hashStep ('=' :: t) i = none := by
  have hm : hashMatch ('=' :: t) = none := by
    rw [hashMatch]
    rw [if_neg]
    intro hcond
    have := hcond.1
    rw [List.takeWhile_cons, if_neg (by decide)] at this
    exact this rfl
  rw [hashStep, hm]

theorem fixLineText_eqform2 (I : List Char) (hI : trim I = I) (hn : '\n' ∉ I) (hr : '\r' ∉ I) :
    fixLineText ("== ".toList ++ I ++ " ==".toList) = "== ".toList ++ I ++ " ==".toList := by
  rw [fixLineText, eqStep_eqform2 I hI hn hr]
  have hshape : "== ".toList ++ I ++ " ==".toList =
      '=' :: ('=' :: ' ' :: (I ++ [' ', '=', '='])) := by simp
  rw [hshape, hashStep_eqhead]

theorem fixLineText_eqform1 (I : List Char) (hI : trim I = I) (hn : '\n' ∉ I) (hr : '\r' ∉ I) :
    fixLineText ("= ".toList ++ I ++ " =".toList) = "= ".toList ++ I ++ " =".toList := by
  rw [fixLineText, eqStep_eqform1 I hI hn hr]
  have hshape : "= ".toList ++ I ++ " =".toList =
      '=' :: (' ' :: (I ++ [' ', '='])) := by simp
  rw [hshape, hashStep_eqhead]


theorem eqStep_shape {line nl : List Char} {ch : FixChange} {i : Nat}
    (h : eqStep line i = some (nl, ch)) (hn : '\n' ∉ line) (hr : '\r' ∉ line) :
    ∃ I, trim I = I ∧ '\n' ∉ I ∧ '\r' ∉ I ∧
      (nl = "== ".toList ++ I ++ " ==".toList ∨ nl = "= ".toList ++ I ++ " =".toList) := by
  have ht_n : '\n' ∉ trim line := fun hx => hn (mem_trim hx)
  have ht_r : '\r' ∉ trim line := fun hx => hr (mem_trim hx)
  unfold eqStep at h
  dsimp only at h
  split at h
  · split at h
    case h_1 a lead inner tra heq =>
      split at h
      · cases h
      · have hclean_n : '\n' ∉ trim inner := by
          intro hx
          rcases malformedMatch_inner heq _ (mem_trim hx) with hx | hx
          · exact ht_n hx
          · exact absurd hx (by decide)
        have hclean_r : '\r' ∉ trim inner := by
          intro hx
          rcases malformedMatch_inner heq _ (mem_trim hx) with hx | hx
          · exact ht_r hx
          · exact absurd hx (by decide)
        split at h
        all_goals split at h
        any_goals cases h
        · exact ⟨trim inner, trim_trim inner, hclean_n, hclean_r, Or.inl rfl⟩
        · exact ⟨trim inner, trim_trim inner, hclean_n, hclean_r, Or.inr rfl⟩
    case h_2 heq =>
      split at h
      · simp only [Option.some.injEq, Prod.mk.injEq] at h
        have hsub : ∀ x ∈ trim (List.dropWhile isJsWs
            (List.drop (eqRunLead (trim line)) (trim line))), x ∈ trim line :=
          fun x hx =>
            (List.drop_subset _ _) ((List.dropWhile_sublist _).subset (mem_trim hx))
        refine ⟨trim (List.dropWhile isJsWs
            (List.drop (eqRunLead (trim line)) (trim line))), trim_trim _,
          fun hx => ht_n (hsub _ hx), fun hx => ht_r (hsub _ hx), ?_⟩
        rw [← h.1]
        split
        · exact Or.inl rfl
        · exact Or.inr rfl
      · cases h
  · cases h

theorem hashStep_shape {line nl : List Char} {mc : Option FixChange} {i : Nat}
    (h : hashStep line i = some (nl, mc)) (hn : '\n' ∉ line) (hr : '\r' ∉ line) :
    ∃ C, trim C = C ∧ '\n' ∉ C ∧ '\r' ∉ C ∧
      (nl = "== ".toList ++ C ++ " ==".toList ∨ nl = "= ".toList ++ C ++ " =".toList) := by
  unfold hashStep at h
  split at h
  case h_1 => cases h
  case h_2 level titlePortion heq =>
    dsimp only at h
    split at h
    · split at h
      case isTrue hcl =>
        simp only [Option.some.injEq, Prod.mk.injEq] at h
        set C := collapseWsRuns (trim (stripTrailingHashes
            (List.dropWhile isJsWs titlePortion))) with hCdef
        have hCt : trim C = C :=
          collapseWsRuns_trimmed _ (trim_trim _)
        have hsub : ∀ x ∈ C, x ∈ line ∨ x = ' ' := by
          intro x hx
          rcases mem_collapseWsRunsGo _ _ hx with hx | hx
          · exact Or.inl (hashMatch_sub heq _
              ((List.dropWhile_sublist _).subset (mem_stripTrailingHashes (mem_trim hx))))
          · exact Or.inr hx
        have hCn : '\n' ∉ C := by
          intro hx
          rcases hsub _ hx with hx | hx
          · exact hn hx
          · exact absurd hx (by decide)
        have hCr : '\r' ∉ C := by
          intro hx
          rcases hsub _ hx with hx | hx
          · exact hr hx
          · exact absurd hx (by decide)
        refine ⟨C, hCt, hCn, hCr, ?_⟩
        rw [← h.1]
        split
        · exact Or.inl rfl
        · exact Or.inr rfl
      case isFalse => cases h
    · cases h

theorem fixLineText_fix (line : List Char) (hn : '\n' ∉ line) (hr : '\r' ∉ line) :
    fixLineText (fixLineText line) = fixLineText line := by
  rcases he : eqStep line 0 with _ | ⟨nl, ch⟩
  · rcases hh : hashStep line 0 with _ | ⟨nl, mc⟩
    · have hfix : fixLineText line = line := by simp [fixLineText, he, hh]
      rw [hfix, hfix]
    · obtain ⟨C, hC, hCn, hCr, hform⟩ := hashStep_shape hh hn hr
      have hfix : fixLineText line = nl := by simp [fixLineText, he, hh]
      rw [hfix]
      rcases hform with rfl | rfl
      · exact fixLineText_eqform2 C hC hCn hCr
      · exact fixLineText_eqform1 C hC hCn hCr
  · obtain ⟨I, hI, hIn, hIr, hform⟩ := eqStep_shape he hn hr
    have hfix : fixLineText line = nl := by simp [fixLineText, he]
    rw [hfix]
    rcases hform with rfl | rfl
    · exact fixLineText_eqform2 I hI hIn hIr
    · exact fixLineText_eqform1 I hI hIn hIr


theorem eqform_not_mem {c : Char} {I : List Char} (hc1 : c ≠ ' ') (hc2 : c ≠ '=')
    (hcI : c ∉ I) :
    c ∉ "== ".toList ++ I ++ " ==".toList ∧ c ∉ "= ".toList ++ I ++ " =".toList := by
  constructor <;>
  · intro hx
    simp only [List.mem_append] at hx
    rcases hx with (hx | hx) | hx
    · simp at hx
      rcases hx with hx | hx
      all_goals first | exact hc2 hx | exact hc1 hx
    · exact hcI hx
    · simp at hx
      rcases hx with hx | hx
      all_goals first | exact hc2 hx | exact hc1 hx

theorem fixLineText_nil : fixLineText [] = [] := by decide

theorem fixLineText_clean (l : List Char) (hn : '\n' ∉ l) (hr : '\r' ∉ l) :
    '\n' ∉ fixLineText l ∧ '\r' ∉ fixLineText l := by
  rcases he : eqStep l 0 with _ | ⟨nl, ch⟩
  · rcases hh : hashStep l 0 with _ | ⟨nl, mc⟩
    · have hfix : fixLineText l = l := by simp [fixLineText, he, hh]
      rw [hfix]
      exact ⟨hn, hr⟩
    · obtain ⟨C, _, hCn, hCr, hform⟩ := hashStep_shape hh hn hr
      have hfix : fixLineText l = nl := by simp [fixLineText, he, hh]
      rw [hfix]
      rcases hform with rfl | rfl
      · exact ⟨(eqform_not_mem (by decide) (by decide) hCn).1,
          (eqform_not_mem (by decide) (by decide) hCr).1⟩
      · exact ⟨(eqform_not_mem (by decide) (by decide) hCn).2,
          (eqform_not_mem (by decide) (by decide) hCr).2⟩
  · obtain ⟨I, _, hIn, hIr, hform⟩ := eqStep_shape he hn hr
    have hfix : fixLineText l = nl := by simp [fixLineText, he]
    rw [hfix]
    rcases hform with rfl | rfl
    · exact ⟨(eqform_not_mem (by decide) (by decide) hIn).1,
        (eqform_not_mem (by decide) (by decide) hIr).1⟩
    · exact ⟨(eqform_not_mem (by decide) (by decide) hIn).2,
        (eqform_not_mem (by decide) (by decide) hIr).2⟩

theorem fenceOpen_eqhead (t : List Char) : fenceOpen ('=' :: t) = none := by
  rw [fenceOpen, if_neg]
  intro hx
  rw [List.isPrefixOf_iff_prefix] at hx
  rcases List.cons_prefix_cons.mp hx with ⟨h1, _⟩
  exact absurd h1 (by decide)

theorem fenceOpen_fixLineText (l : List Char) (hn : '\n' ∉ l) (hr : '\r' ∉ l)
    (h : fenceOpen l = none) : fenceOpen (fixLineText l) = none := by
  rcases he : eqStep l 0 with _ | ⟨nl, ch⟩
  · rcases hh : hashStep l 0 with _ | ⟨nl, mc⟩
    · have hfix : fixLineText l = l := by simp [fixLineText, he, hh]
      rw [hfix]
      exact h
    · obtain ⟨C, _, _, _, hform⟩ := hashStep_shape hh hn hr
      have hfix : fixLineText l = nl := by simp [fixLineText, he, hh]
      rw [hfix]
      rcases hform with rfl | rfl
      · rw [show "== ".toList ++ C ++ " ==".toList =
            '=' :: ('=' :: ' ' :: (C ++ [' ', '=', '='])) by simp]
        exact fenceOpen_eqhead _
      · rw [show "= ".toList ++ C ++ " =".toList =
            '=' :: (' ' :: (C ++ [' ', '='])) by simp]
        exact fenceOpen_eqhead _
  · obtain ⟨I, _, _, _, hform⟩ := eqStep_shape he hn hr
    have hfix : fixLineText l = nl := by simp [fixLineText, he]
    rw [hfix]
    rcases hform with rfl | rfl
    · rw [show "== ".toList ++ I ++ " ==".toList =
          '=' :: ('=' :: ' ' :: (I ++ [' ', '=', '='])) by simp]
      exact fenceOpen_eqhead _
    · rw [show "= ".toList ++ I ++ " =".toList =
          '=' :: (' ' :: (I ++ [' ', '='])) by simp]
      exact fenceOpen_eqhead _


/-- C2 (amended): `autoFixReadme` is idempotent on its updated text for
inputs that contain no carriage returns and no opening code fence on any
line: the loop then rewrites each line independently, and each rewritten
line is a fixed point of the rewrite. -/
theorem c2_autofix_idempotent (raw : List Char) (style : FixStyle)
    (hcr : '\r' ∉ raw)
    (hf : ∀ l ∈ splitCRLF raw, fenceOpen l = none) :
    (autoFixReadme (autoFixReadme raw style).updated style).updated =
      (autoFixReadme raw style).updated := by
  have hln : ∀ l ∈ splitCRLF raw, '\n' ∉ l := splitCRLF_no_nl raw
  have hlr : ∀ l ∈ splitCRLF raw, '\r' ∉ l :=
    fun l hl hx => hcr (splitCRLF_mem_sub raw l hl '\r' hx)
  rcases hgo : autoGo style (splitCRLF raw).length 0 (splitCRLF raw) with ⟨out1, chs1⟩
  have hout1 : out1 = (splitCRLF raw).map fixLineText := by
    have := autoGo_map style (splitCRLF raw).length 0 (splitCRLF raw) (le_refl _) hf
    rw [hgo] at this
    exact this
  rcases hcb : collapseBlank 0 out1 with ⟨norm1, chs2⟩
  have hupd1 : (autoFixReadme raw style).updated = joinLF norm1 := by
    rw [autoFixReadme]
    dsimp only
    rw [hgo]
    dsimp only
    rw [hcb]
  have hmem : ∀ o ∈ norm1, o = [] ∨ ∃ l ∈ splitCRLF raw, o = fixLineText l := by
    intro o ho
    rcases collapseBlank_out_mem 0 out1 o (by rw [hcb]; exact ho) with h | h
    · exact Or.inl h
    · right
      rw [hout1] at h
      obtain ⟨l, hl, he⟩ := List.mem_map.mp h
      exact ⟨l, hl, he.symm⟩
  have hnn : ∀ o ∈ norm1, '\n' ∉ o ∧ '\r' ∉ o := by
    intro o ho
    rcases hmem o ho with rfl | ⟨l, hl, rfl⟩
    · exact ⟨by simp, by simp⟩
    · exact fixLineText_clean l (hln l hl) (hlr l hl)
  have hfix : ∀ o ∈ norm1, fixLineText o = o := by
    intro o ho
    rcases hmem o ho with rfl | ⟨l, hl, rfl⟩
    · exact fixLineText_nil
    · exact fixLineText_fix l (hln l hl) (hlr l hl)
  have hfence2 : ∀ o ∈ norm1, fenceOpen o = none := by
    intro o ho
    rcases hmem o ho with rfl | ⟨l, hl, rfl⟩
    · rfl
    · exact fenceOpen_fixLineText l (hln l hl) (hlr l hl) (hf l hl)
  have hne : norm1 ≠ [] := by
    have h1 := splitCRLF_ne_nil raw
    rcases hsp : splitCRLF raw with _ | ⟨l0, ls0⟩
    · exact absurd hsp h1
    · have : out1 = fixLineText l0 :: ls0.map fixLineText := by
        rw [hout1, hsp]
        rfl
      have h2 := collapseBlank_zero_ne_nil (fixLineText l0) (ls0.map fixLineText)
      rw [← this] at h2
      rw [hcb] at h2
      exact h2
  rw [hupd1]
  rw [autoFixReadme]
  dsimp only
  rw [splitCRLF_joinLF norm1 hne hnn]
  rcases hgo2 : autoGo style norm1.length 0 norm1 with ⟨out2, chs1b⟩
  have hout2 : out2 = norm1 := by
    have := autoGo_map style norm1.length 0 norm1 (le_refl _) hfence2
    rw [hgo2] at this
    dsimp only at this
    rw [this]
    have hmapid : norm1.map fixLineText = norm1.map id := List.map_congr_left hfix
    rw [hmapid, List.map_id]
  dsimp only
  rcases hcb2 : collapseBlank 0 out2 with ⟨norm2, chs2b⟩
  have hn2 : norm2 = norm1 := by
    have hidem := collapseBlank_idem out1 0 0 (le_refl 0)
    rw [hcb] at hidem
    dsimp only at hidem
    rw [hout2] at hcb2
    rw [hcb2] at hidem
    exact hidem
  dsimp only
  rw [hn2]


/-- Counterexample to C2 as stated: a fenced block whose body is an
`=`-heading is first indented, and the second pass then rewrites the
indented heading line again. -/
theorem c2_autofix_idempotent_cex :
    (autoFixReadme (autoFixReadme "```\n= a =\nb\n```".toList .indented).updated
        .indented).updated ≠
      (autoFixReadme "```\n= a =\nb\n```".toList .indented).updated := by
  decide

/-- Witness for C2 at a fence-free two-line input that the first pass
does rewrite. -/
theorem c2_autofix_idempotent_witness :
    (autoFixReadme (autoFixReadme "= Title\n# Head".toList .indented).updated
        .indented).updated =
      (autoFixReadme "= Title\n# Head".toList .indented).updated :=
  c2_autofix_idempotent "= Title\n# Head".toList .indented (by decide) (by decide)

end AutoFix
